import Mathlib

/-!
Verification of the ccargo build engine against its specification.

This file gives a shallow embedding, in Lean 4, of the parts of the ccargo
source that the checked claims are about:

* `src/ccargo/src/utils/serde_bin.rs`  — `BinaryReader` (length-prefixed codec)
* `src/ccargo/src/core/fingerprint.rs` — `Fingerprint`, `LocalFingerprint`,
  `DepInfo`, `compare_old_fingerprint`, `prepare`, `find_stale_item`
* `src/ccargo/src/core/step.rs`        — `Step::run` stdout processing
* `src/ccargo/src/core/compile.rs`     — `TargetDeps::collect`
* `src/ccargo/src/utils/graph.rs`      — `GraphParallelIter`, Tarjan SCC,
  `GraphCycles::remove_from_graph`
* `src/ccargo/src/utils/msg_queue.rs`  — `Inner` (ordered message queue)

Rust functions become Lean functions; `u8`/`u32`/`u64` become `Nat` (with
little-endian decoding made explicit); fallible code returns an explicit
result type.  Rust can also panic (out-of-bounds indexing, `unreachable!`,
assertion failures); panics are modelled by a dedicated result constructor,
since several claims turn on whether a panic is reachable.  Unbounded
recursion (the nested `Fingerprint` deserializer, `TargetDeps::collect`) is
embedded with an explicit fuel parameter; exhausted fuel is a separate
constructor that the theorems rule out or quantify over.
-/

namespace Ccargo

/-- Byte strings: a `u8` sequence is a list of naturals (each below 256 in
every input we consider). -/
abbrev Bytes := List Nat

/-- Result of running a piece of Rust code that may fail (`Option::None` /
`Err`), panic, or — in the fuel-indexed embedding of unbounded recursion —
run out of fuel. -/
inductive PRes (α : Type) where
  | ok (a : α)
  | fail
  | panicked
  | nofuel
deriving DecidableEq

/-- A reader computation: consumes a prefix of the input bytes and returns a
value together with the remaining bytes (models `BinaryReader`, whose slice
advances as values are read). -/
def Rd (α : Type) : Type := Bytes → PRes (α × Bytes)

def Rd.bind {α β : Type} (m : Rd α) (f : α → Rd β) : Rd β := fun bs =>
  match m bs with
  | .ok (a, r) => f a r
  | .fail => .fail
  | .panicked => .panicked
  | .nofuel => .nofuel

def Rd.pure {α : Type} (a : α) : Rd α := fun bs => .ok (a, bs)

instance : Monad Rd where
  pure := Rd.pure
  bind := Rd.bind

/-- Little-endian value of a byte list (least significant byte first). -/
def fromLE : Bytes → Nat
  | [] => 0
  | b :: r => b + 256 * fromLE r

/-- `BinaryReader::read_u8`: `let r = self.0[0]` indexes the slice without a
bounds check, so an empty input panics; otherwise one byte is consumed. -/
def readU8 : Rd Nat := fun bs =>
  match bs with
  | [] => .panicked
  | b :: r => .ok (b, r)

/-- `BinaryReader::read_u32`: `split_at(4)` panics when fewer than 4 bytes
remain; otherwise decodes little-endian. -/
def readU32 : Rd Nat := fun bs =>
  if bs.length < 4 then .panicked else .ok (fromLE (bs.take 4), bs.drop 4)

/-- `BinaryReader::read_u64`: `split_at(8)` panics when fewer than 8 bytes
remain; otherwise decodes little-endian. -/
def readU64 : Rd Nat := fun bs =>
  if bs.length < 8 then .panicked else .ok (fromLE (bs.take 8), bs.drop 8)

/-- `BinaryReader::read_bytes`: a u64 length prefix followed by that many raw
bytes; `split_at(n)` panics when fewer than `n` bytes remain. -/
def readBytes : Rd Bytes := Rd.bind readU64 (fun n => fun bs =>
  if bs.length < n then .panicked else .ok (bs.take n, bs.drop n))

/-- `BinaryReader::read_path`: on Unix `bytes2path` is total, so a path is
exactly its `read_bytes` payload. -/
def readPath : Rd Bytes := readBytes

/-- Run a reader `n` times collecting the results (models `for _ in 0..n`
loops around a reader). -/
def readN {α : Type} (n : Nat) (m : Rd α) : Rd (List α) :=
  match n with
  | 0 => Rd.pure []
  | k + 1 => Rd.bind m (fun a => Rd.bind (readN k m) (fun rest => Rd.pure (a :: rest)))

end Ccargo

namespace Ccargo

/-! ### Ordered message queue (`src/ccargo/src/utils/msg_queue.rs`)

The queue's operations are serialized (writes to the shared sink happen
under an implicit lock, and `finish` manipulates the `current` cursor
atomically), so its behaviour over any interleaving is the sequential
execution of a list of events on the state below. -/

/-- State of `msg_queue::Inner`: the shared sink, the per-slot buffers, the
per-slot done flags, the writer count, the `current` cursor and the
capacity. -/
structure QState where
  capacity : Nat
  count : Nat
  current : Nat
  cached : List Bytes
  done : List Bool
  sink : Bytes
deriving DecidableEq

/-- `Inner::add`: hand out the next slot index (`fetch_add`), asserting
`index < capacity` — the assertion failure is a panic ("Requested too many
writers"). -/
def qAdd (s : QState) : PRes (Nat × QState) :=
  let index := s.count
  let s' := { s with count := s.count + 1 }
  if index < s.capacity then .ok (index, s') else .panicked

/-- `MsgWriter::push` via `Inner::write_mut`: a write to the `current` slot
goes directly to the sink, any other slot appends to its in-memory buffer. -/
def qPush (s : QState) (i : Nat) (buf : Bytes) : QState :=
  if i = s.current then { s with sink := s.sink ++ buf }
  else { s with cached := s.cached.set i ((s.cached.getD i []) ++ buf) }

/-- `Inner::flush_cached`: append slot `i`'s buffer to the sink if nonempty
(the buffer itself is not cleared — the cursor never returns to `i`). -/
def qFlushCached (s : QState) (i : Nat) : QState :=
  let c := s.cached.getD i []
  if c.isEmpty then s else { s with sink := s.sink ++ c }

/-- The advancing loop of `Inner::finish`: while `cur < end` and slot `cur`
is finished, flush its buffer and advance.  The loop runs at most
`end - cur` times; `fuel` bounds it (callers pass enough). -/
def qAdvance (s : QState) (cur endc : Nat) : Nat → Nat × QState
  | 0 => (cur, s)
  | fuel + 1 =>
    if cur < endc ∧ s.done.getD cur false then
      qAdvance (qFlushCached s cur) (cur + 1) endc fuel
    else (cur, s)

/-- `Inner::finish`: mark the slot finished; if it is the `current` slot,
flush every already-finished contiguous slot and advance the cursor. -/
def qFinish (s : QState) (i : Nat) : QState :=
  let s1 := { s with done := s.done.set i true }
  if i = s1.current then
    let (cur', s2) := qAdvance s1 s1.current s1.count (s1.count + 1)
    { s2 with current := cur' }
  else s1

/-- An externally observable queue event: a push to slot `i`, or the drop of
slot `i`'s (last) writer. -/
inductive QEvent where
  | push (i : Nat) (buf : Bytes)
  | drop (i : Nat)

/-- Run a sequence of events against the queue state. -/
def qRun (s : QState) : List QEvent → QState
  | [] => s
  | .push i b :: rest => qRun (qPush s i b) rest
  | .drop i :: rest => qRun (qFinish s i) rest

/-- Initial queue state with capacity `cap` after `n` writers have been
created (`MsgQueue::new` plus `n` calls to `writer()`). -/
def qInit (cap n : Nat) : QState :=
  { capacity := cap, count := n, current := 0,
    cached := List.replicate cap [], done := List.replicate cap false, sink := [] }

/-- Results of `m` successive `writer()` calls starting from state `s`; a
panicking call aborts the process, so nothing follows it. -/
def qCalls (s : QState) : Nat → List (PRes Nat)
  | 0 => []
  | m + 1 =>
    match qAdd s with
    | .ok (i, s') => .ok i :: qCalls s' m
    | _ => [.panicked]

end Ccargo

namespace Ccargo

/-! ### Graph parallel stages (`src/ccargo/src/utils/graph.rs`)

Nodes are indices `0 .. adj.length - 1`; `adj` is the `graph` adjacency
vector (`graph[n]` lists the outbound edge targets of node `n`). -/

/-- One `GraphParallelIter::next` group: every remaining node all of whose
outbound edges target nodes that are no longer remaining. -/
def stageGroup (adj : List (List Nat)) (rem : Finset Nat) : Finset Nat :=
  rem.filter (fun a => ∀ b ∈ adj.getD a [], b ∉ rem)

/-- The remaining set after one `next` call. -/
def stageStep (adj : List (List Nat)) (rem : Finset Nat) : Finset Nat :=
  rem \ stageGroup adj rem

/-- The remaining set after `n` calls to `next`. -/
def remIter (adj : List (List Nat)) (rem : Finset Nat) : Nat → Finset Nat
  | 0 => rem
  | n + 1 => remIter adj (stageStep adj rem) n

/-- The sequence of groups yielded by the iterator, driven for at most `fuel`
steps; the iterator itself stops (returns `None`) exactly when the remaining
set is empty. -/
def stagesList (adj : List (List Nat)) : Nat → Finset Nat → List (Finset Nat)
  | 0, _ => []
  | fuel + 1, rem =>
    if rem = ∅ then []
    else stageGroup adj rem :: stagesList adj fuel (stageStep adj rem)

end Ccargo

namespace Ccargo

/-! ### Tarjan SCC and cycle removal (`src/ccargo/src/utils/graph.rs`) -/

/-- State of the Tarjan strongly-connected-components traversal
(`graph.rs::State`): `index[v] = none` models `usize::MAX` (unvisited). -/
structure TState where
  current : Nat
  stack : List Nat
  index : List (Option Nat)
  lowlink : List Nat
  onStack : List Bool
  cycles : List (List Nat)
deriving DecidableEq

/-- Pop the Tarjan stack down to `v` inclusive, collecting the popped nodes
in pop order (the `while let Some(w) = s.stack.pop()` loop of
`strong_connect`). -/
def tPop (s : TState) (v : Nat) : Nat → (List Nat × TState)
  | 0 => ([], s)
  | fuel + 1 =>
    match s.stack.getLast? with
    | none => ([], s)
    | some w =>
      let s' := { s with stack := s.stack.dropLast, onStack := s.onStack.set w false }
      if w = v then ([w], s')
      else
        let (cyc, s'') := tPop s' v fuel
        (w :: cyc, s'')

/-- The body of `strong_connect` for node `v`, with explicit recursion fuel
(the Rust recursion depth is bounded by the node count). -/
def strongConnect (adj : List (List Nat)) : Nat → TState → Nat → TState
  | 0, s, _ => s
  | fuel + 1, s, v =>
    let s := { s with
      index := s.index.set v (some s.current),
      lowlink := s.lowlink.set v s.current,
      onStack := s.onStack.set v true,
      current := s.current + 1,
      stack := s.stack ++ [v] }
    let s := (adj.getD v []).foldl (fun (s : TState) w =>
      match s.index.getD w none with
      | none =>
        let s := strongConnect adj fuel s w
        { s with lowlink := s.lowlink.set v (min (s.lowlink.getD v 0) (s.lowlink.getD w 0)) }
      | some iw =>
        if s.onStack.getD w false then
          { s with lowlink := s.lowlink.set v (min (s.lowlink.getD v 0) iw) }
        else s) s
    if s.lowlink.getD v 0 = (s.index.getD v none).getD 0 then
      let (cycle, s') := tPop s v (s.stack.length + 1)
      if cycle.length > 1 then { s' with cycles := s'.cycles ++ [cycle] }
      else s'
    else s

/-- `detect_cycles`: run `strong_connect` from every unvisited node in index
order and return the collected non-trivial SCCs in discovery order. -/
def detectCycles (adj : List (List Nat)) : List (List Nat) :=
  let n := adj.length
  let init : TState :=
    { current := 0, stack := [], index := List.replicate n none,
      lowlink := List.replicate n 0, onStack := List.replicate n false, cycles := [] }
  let final := (List.range n).foldl (fun (s : TState) v =>
    match s.index.getD v none with
    | none => strongConnect adj n s v
    | some _ => s) init
  final.cycles

/-- Rust's `Iterator::min_by_key`: the first element attaining the minimal
key, or `none` for an empty iterator. -/
def minByKeyFirst {α : Type} (key : α → Nat) : List α → Option α
  | [] => none
  | a :: rest =>
    match minByKeyFirst key rest with
    | none => some a
    | some b => if key a ≤ key b then some a else some b

/-- `Vec::swap_remove(i)`: replace element `i` with the last element and
shorten; returns the removed element.  `none` models the out-of-bounds
panic. -/
def swapRemove {α : Type} (l : List α) (i : Nat) : Option (α × List α) :=
  match l[i]? with
  | none => none
  | some a =>
    let l' := l.dropLast
    some (a, if i = l'.length then l' else l'.set i (l.getLast?.getD a))

/-- `GraphCycles::remove_from_graph` for one cycle: pick the node minimising
`g.graph[*n].iter().map(|i| is_cycle.get(*i)).count()` — note that `map`
does not filter, so this key is the node's total outbound edge count — and
remove one of its in-cycle edges (`pop` when it has a single edge, otherwise
`swap_remove` at the first in-cycle position).  `isCycle` is the bitset over
all cycle members.  Returns the removed edge and the updated adjacency, or
`none` where the Rust code would panic on an `unwrap`. -/
def removeOneCycle (isCycle : Nat → Bool) (adj : List (List Nat))
    (cycle : List Nat) : Option ((Nat × Nat) × List (List Nat)) :=
  match minByKeyFirst (fun n => ((adj.getD n []).map (fun i => isCycle i)).length) cycle with
  | none => none
  | some node =>
    let links := adj.getD node []
    if links.length = 1 then
      match links.getLast? with
      | none => none
      | some c => some ((node, c), adj.set node links.dropLast)
    else
      match links.findIdx? (fun c => isCycle c) with
      | none => none
      | some idx =>
        match swapRemove links idx with
        | none => none
        | some (c, links') => some ((node, c), adj.set node links')

/-- `GraphCycles::remove_from_graph`: process every cycle in order,
accumulating the removed edges. -/
def removeFromGraph (adj : List (List Nat)) (cycles : List (List Nat)) :
    Option (List (Nat × Nat) × List (List Nat)) :=
  let isCycle : Nat → Bool := fun n => cycles.any (fun c => c.contains n)
  let rec go (adj : List (List Nat)) : List (List Nat) → Option (List (Nat × Nat) × List (List Nat))
    | [] => some ([], adj)
    | c :: rest =>
      match removeOneCycle isCycle adj c with
      | none => none
      | some (e, adj') =>
        match go adj' rest with
        | none => none
        | some (es, adjF) => some (e :: es, adjF)
  go adj cycles

/-- The number of outbound links of `n` that leave the cycle set — the key
the source's own doc comment says the heuristic minimises ("the node that
has the least number of non-cycle links per cycle"). -/
def nonCycleLinkCount (isCycle : Nat → Bool) (adj : List (List Nat)) (n : Nat) : Nat :=
  ((adj.getD n []).filter (fun i => !isCycle i)).length

end Ccargo

namespace Ccargo

/-! ### Target dependency collection (`src/ccargo/src/core/compile.rs`)

`TargetDeps::collect` walks `target.depends` (a `Vec<PublicPrivate<TargetName>>`),
resolves each name through the unit map, and for each resolved `Target`
pushes its output library, inserts its `Public`-tagged includes and defines,
and recurses.  Names are modelled as strings, a target's output path by its
name; `env name = none` models a name that resolves to a `Step` unit (the
`else continue` branch). -/

/-- The fields of `TargetInner` that `TargetDeps::collect` consults.  Each
`depends` / `includes` / `defines` entry carries its `PublicPrivate` bit. -/
structure CTarget where
  name : String
  depends : List (String × Bool)
  includes : List (String × Bool)
  defines : List ((String × Option String) × Bool)
deriving DecidableEq

/-- The `TargetDeps` accumulator: `libs` is an ordered `Vec`, `includes` a
`BTreeSet` (modelled by its underlying set), `defines` a `BTreeMap`
(modelled by an association list with overwrite-on-insert). -/
structure TgtDeps where
  libs : List String
  includes : Finset String
  defines : List (String × Option String)

/-- `BTreeMap::insert`: overwrite the value at an existing key, otherwise
append the binding. -/
def insertDefine (m : List (String × Option String)) (k : String) (v : Option String) :
    List (String × Option String) :=
  if m.any (fun p => p.1 = k) then m.map (fun p => if p.1 = k then (k, v) else p)
  else m ++ [(k, v)]

/-- The per-dependency body of `TargetDeps::collect` before the recursive
call: push the dependency's output library, insert its public includes, and
insert its public defines. -/
def collectOne (acc : TgtDeps) (d : CTarget) : TgtDeps :=
  let acc1 := { acc with libs := acc.libs ++ [d.name] }
  let acc2 := { acc1 with
    includes := (d.includes.filter (fun p : String × Bool => p.2)).foldl
      (fun s (p : String × Bool) => insert p.1 s) acc1.includes }
  { acc2 with
    defines := (d.defines.filter (fun p : (String × Option String) × Bool => p.2)).foldl
      (fun m (p : (String × Option String) × Bool) => insertDefine m p.1.1 p.1.2) acc2.defines }

/-- The `for dep_name in target.depends.iter()` loop of `collect`,
parameterized by the recursive call (`cf`).  Note the `PublicPrivate` bit
of the edge (`nb.2`) is never consulted. -/
def collectDepsWith (env : String → Option CTarget) (cf : CTarget → TgtDeps → TgtDeps) :
    List (String × Bool) → TgtDeps → TgtDeps
  | [], acc => acc
  | nb :: rest, acc =>
    match env nb.1 with
    | none => collectDepsWith env cf rest acc
    | some d => collectDepsWith env cf rest (cf d (collectOne acc d))

/-- `TargetDeps::collect`, with fuel bounding the recursion depth (the Rust
code recurses unconditionally; on an acyclic dependency graph any fuel at
least the dependency-chain depth gives the Rust result). -/
def collectF (env : String → Option CTarget) : Nat → CTarget → TgtDeps → TgtDeps
  | 0, _, acc => acc
  | fuel + 1, t, acc => collectDepsWith env (collectF env fuel) t.depends acc

/-- The dependency loop at a given recursion budget. -/
def collectDeps (env : String → Option CTarget) (fuel : Nat) :
    List (String × Bool) → TgtDeps → TgtDeps :=
  collectDepsWith env (collectF env fuel)

/-- Reachability through at most `fuel` dependency edges (of either
visibility), resolving names through `env`; at least one edge. -/
def reachW (env : String → Option CTarget) : Nat → CTarget → CTarget → Prop
  | 0, _, _ => False
  | fuel + 1, t, d =>
    ∃ nb ∈ t.depends, ∃ m, env nb.1 = some m ∧ (m = d ∨ reachW env fuel m d)

/-- Reachability through at most `fuel` dependency edges all of which are
tagged `Public` — the propagation rule the specification states. -/
def reachPub (env : String → Option CTarget) : Nat → CTarget → CTarget → Prop
  | 0, _, _ => False
  | fuel + 1, t, d =>
    ∃ nb ∈ t.depends, nb.2 = true ∧ ∃ m, env nb.1 = some m ∧ (m = d ∨ reachPub env fuel m d)

end Ccargo

namespace Ccargo

/-! ### Fingerprint data model and binary codec
(`src/ccargo/src/core/fingerprint.rs`, `src/ccargo/src/utils/serde_bin.rs`) -/

/-- `LocalFingerprint`, generic in the path representation (serialized
fingerprints carry raw byte paths, `calculate_step` builds structured
ones). -/
inductive MLocalFP (P : Type) where
  | checkDepInfo (depInfo : P) (checkAll : Bool)
  | rerunIfChanged (output : P) (paths : List P)
deriving DecidableEq

def MLocalFP.isRerun {P : Type} : MLocalFP P → Bool
  | .rerunIfChanged _ _ => true
  | .checkDepInfo _ _ => false

/-- `TargetName`: the two interned halves, kept as the byte strings they
were parsed from. -/
structure MTargetName where
  package : Bytes
  target : Bytes
deriving DecidableEq

/-- `FsStatus`. -/
inductive MFsStatus where
  | stale
  | upToDate (mtimes : List (Bytes × Nat))
deriving DecidableEq

/-- `FsStatus::up_to_date`. -/
def MFsStatus.upToDateB : MFsStatus → Bool
  | .stale => false
  | .upToDate _ => true

/-- `Fingerprint`: the hashes, the filesystem status, the dependency list
(`DepFingerprint` triples of package-id hash, target name and recursive
fingerprint), the local fingerprints, and the expected outputs. -/
inductive MFingerprint where
  | mk (compilerHash targetHash profileHash : Nat) (fsStatus : MFsStatus)
      (deps : List (Nat × MTargetName × MFingerprint))
      (locals : List (MLocalFP Bytes))
      (outputs : List Bytes)

def MFingerprint.compilerHash : MFingerprint → Nat | .mk c _ _ _ _ _ _ => c
def MFingerprint.targetHash : MFingerprint → Nat | .mk _ t _ _ _ _ _ => t
def MFingerprint.profileHash : MFingerprint → Nat | .mk _ _ p _ _ _ _ => p
def MFingerprint.fsStatus : MFingerprint → MFsStatus | .mk _ _ _ f _ _ _ => f
def MFingerprint.deps : MFingerprint → List (Nat × MTargetName × MFingerprint) | .mk _ _ _ _ d _ _ => d
def MFingerprint.locals : MFingerprint → List (MLocalFP Bytes) | .mk _ _ _ _ _ l _ => l
def MFingerprint.outputs : MFingerprint → List Bytes | .mk _ _ _ _ _ _ o => o

/-- Is a UTF-8 continuation byte. -/
def utf8Cont (c : Nat) : Bool := if 128 ≤ c ∧ c ≤ 191 then true else false

/-- UTF-8 validity of a byte string (the check `std::str::from_utf8`
performs). -/
def utf8Valid : Bytes → Bool
  | [] => true
  | b :: r =>
    if b < 128 then utf8Valid r
    else if b < 194 then false
    else if b ≤ 223 then
      match r with
      | c1 :: r' => utf8Cont c1 && utf8Valid r'
      | [] => false
    else if b ≤ 239 then
      match r with
      | c1 :: c2 :: r' =>
        let lo := if b = 224 then 160 else 128
        let hi := if b = 237 then 159 else 191
        (if lo ≤ c1 ∧ c1 ≤ hi then true else false) && utf8Cont c2 && utf8Valid r'
      | _ => false
    else if b ≤ 244 then
      match r with
      | c1 :: c2 :: c3 :: r' =>
        let lo := if b = 240 then 144 else 128
        let hi := if b = 244 then 143 else 191
        (if lo ≤ c1 ∧ c1 ≤ hi then true else false) && utf8Cont c2 && utf8Cont c3 && utf8Valid r'
      | _ => false
    else false

/-- Byte index of the first occurrence of `pat` in a byte string
(`str::find` for an ASCII pattern). -/
def findSub (pat : Bytes) : Bytes → Option Nat
  | [] => if pat.isPrefixOf ([] : Bytes) then some 0 else none
  | b :: r =>
    if pat.isPrefixOf (b :: r) then some 0
    else (findSub pat r).map (· + 1)

/-- `TargetName::from_str` composed with `std::str::from_utf8`: the name
must be valid UTF-8 and split as `pkg::target` with both halves nonempty
(`find("::")` filtered by `0 < idx < len - 2`). -/
def decodeTargetName (bytes : Bytes) : Option MTargetName :=
  if utf8Valid bytes then
    match findSub [58, 58] bytes with
    | none => none
    | some idx =>
      if 0 < idx ∧ idx < bytes.length - 2 then
        some ⟨bytes.take idx, bytes.drop (idx + 2)⟩
      else none
  else none

/-- `LocalFingerprint::deserialize`: a kind byte `0` (CheckDepInfo: check_all
byte then path) or `1` (RerunIfChanged: output path then counted path list);
any other kind byte hits `unreachable!()` — a panic. -/
def readLocalFP : Rd (MLocalFP Bytes) :=
  Rd.bind readU8 (fun kind =>
    if kind = 0 then
      Rd.bind readU8 (fun ca =>
        Rd.bind readPath (fun p => Rd.pure (.checkDepInfo p (ca = 1))))
    else if kind = 1 then
      Rd.bind readPath (fun output =>
        Rd.bind readU32 (fun n =>
          Rd.bind (readN n readPath) (fun ps => Rd.pure (.rerunIfChanged output ps))))
    else fun _ => .panicked)

/-- `DepFingerprint::deserialize`, parameterized by the reader for the
nested fingerprint: package-id hash, length-prefixed name (which must parse
as a `TargetName`, otherwise `None`), then the nested fingerprint. -/
def readDepFPWith (rf : Rd MFingerprint) : Rd (Nat × MTargetName × MFingerprint) :=
  Rd.bind readU64 (fun pkgId =>
  Rd.bind readBytes (fun nameBytes =>
    match decodeTargetName nameBytes with
    | none => fun _ => .fail
    | some nm =>
      Rd.bind rf (fun fp => Rd.pure (pkgId, nm, fp))))

/-- `Fingerprint::deserialize`: three u64 hashes, the dep and local counts,
then the dependency fingerprints (recursively, via `readDepFPWith`; the
`for _ in 0..n_deps` loop is `readN`) and the local fingerprints.
`fsStatus` and `outputs` come from `Fingerprint::default()`.  `fuel` bounds
the nesting depth of dependency fingerprints. -/
def readFingerprint : Nat → Rd MFingerprint
  | 0 => fun _ => .nofuel
  | fuel + 1 =>
    Rd.bind readU64 (fun ch =>
    Rd.bind readU64 (fun th =>
    Rd.bind readU64 (fun ph =>
    Rd.bind readU32 (fun nDeps =>
    Rd.bind readU32 (fun nLocal =>
    Rd.bind (readN nDeps (readDepFPWith (readFingerprint fuel))) (fun deps =>
    Rd.bind (readN nLocal readLocalFP) (fun locals =>
    Rd.pure (.mk ch th ph .stale deps locals []))))))))

/-- `DepFingerprint::deserialize` at a given nesting budget. -/
def readDepFP (fuel : Nat) : Rd (Nat × MTargetName × MFingerprint) :=
  readDepFPWith (readFingerprint fuel)

/-- `Fingerprint::deserialize` on a whole buffer, with enough fuel for any
input of that length (established by `readFingerprint_not_nofuel`). -/
def fingerprintDeserialize (bs : Bytes) : PRes MFingerprint :=
  match readFingerprint (bs.length + 1) bs with
  | .ok (fp, _) => .ok fp
  | .fail => .fail
  | .panicked => .panicked
  | .nofuel => .nofuel

end Ccargo

namespace Ccargo

/-! ### Fingerprint comparison and `prepare`
(`src/ccargo/src/core/fingerprint.rs`) -/

/-- The reasons `Fingerprint::compare` can bail with (the diagnostic
message texts are abstracted to their cases). -/
inductive CmpReason where
  | compilerChanged
  | targetChanged
  | profileChanged
  | localLenChanged
  | depsLenChanged
  | depInfoChanged
  | rerunOutputChanged
  | rerunPathsChanged
  | localKindChanged
  | depNameChanged
  | depHashChanged
  | fsOutdated
  | nothingObvious
deriving DecidableEq

/-- First mismatch produced by walking two lists in lockstep (`zip`). -/
def firstSome2 {α : Type} (f : α → α → Option CmpReason) :
    List α → List α → Option CmpReason
  | [], _ => none
  | _, [] => none
  | a :: ar, b :: br =>
    match f a b with
    | some r => some r
    | none => firstSome2 f ar br

/-- The per-entry comparison of the `local` lists in `Fingerprint::compare`
(`check_all` is ignored there — only the paths are compared). -/
def cmpLocal : MLocalFP Bytes → MLocalFP Bytes → Option CmpReason
  | .checkDepInfo a _, .checkDepInfo b _ =>
    if a ≠ b then some .depInfoChanged else none
  | .rerunIfChanged ao ap, .rerunIfChanged bo bp =>
    if ao ≠ bo then some .rerunOutputChanged
    else if ap ≠ bp then some .rerunPathsChanged
    else none
  | _, _ => some .localKindChanged

/-- The per-entry comparison of the `deps` lists in `Fingerprint::compare`;
`h` is the (abstracted) `Fingerprint::hash_u64`. -/
def cmpDep (h : MFingerprint → Nat) (a b : Nat × MTargetName × MFingerprint) :
    Option CmpReason :=
  if a.2.1 ≠ b.2.1 then some .depNameChanged
  else if h a.2.2 ≠ h b.2.2 then some .depHashChanged
  else none

/-- `Fingerprint::compare(self = new, old)`: the chain of bails.  The
function never returns `Ok` (`compareFP_isErr`). -/
def compareFP (h : MFingerprint → Nat) (newF oldF : MFingerprint) :
    Except CmpReason Unit :=
  if newF.compilerHash ≠ oldF.compilerHash then .error .compilerChanged
  else if newF.targetHash ≠ oldF.targetHash then .error .targetChanged
  else if newF.profileHash ≠ oldF.profileHash then .error .profileChanged
  else if newF.locals.length ≠ oldF.locals.length then .error .localLenChanged
  else if newF.deps.length ≠ oldF.deps.length then .error .depsLenChanged
  else
    match firstSome2 cmpLocal newF.locals oldF.locals with
    | some r => .error r
    | none =>
      match firstSome2 (cmpDep h) newF.deps oldF.deps with
      | some r => .error r
      | none =>
        if ¬ newF.fsStatus.upToDateB then .error .fsOutdated
        else .error .nothingObvious

/-- `utils::to_hex`: each little-endian byte of the u64 becomes two lowercase
hex characters, high nibble first. -/
def hexDigit (d : Nat) : Char := "0123456789abcdef".toList.getD d '0'

def toHex (n : Nat) : List Char :=
  ((List.range 8).map (fun i =>
    let b := n / 256 ^ i % 256
    [hexDigit (b / 16), hexDigit (b % 16)])).flatten

/-- `FingerprintState`: the set of changed source files and the link flag. -/
structure MState where
  files : Finset Bytes
  link : Bool
deriving DecidableEq

/-- `FingerprintState::is_fresh`. -/
def MState.isFresh (s : MState) : Bool := s.files = ∅ ∧ s.link = false

/-- `FingerprintState::default()`. -/
def freshState : MState := ⟨∅, false⟩

/-- The on-disk state `prepare` consults: the content of the fingerprint
hash file (`none` when reading it fails, e.g. it is missing) and the raw
content of the `.hash.bin` file. -/
structure MDisk where
  hashFile : Option (List Char)
  binFile : Option Bytes

/-- How `compare_old_fingerprint` can fail: the hash file is unreadable, the
`.hash.bin` file is unreadable, the old fingerprint fails to parse, or
`Fingerprint::compare` produced a diff reason. -/
inductive OldCmpErr where
  | ioHash
  | ioBin
  | parseFailed
  | diff (r : CmpReason)
deriving DecidableEq

/-- `compare_old_fingerprint`: read the stored hex, succeed iff it equals
`to_hex(hash_u64)` and `fs_status` is up to date; otherwise read and
deserialize the stored binary fingerprint (which may panic — see
`readFingerprint`) and produce `Fingerprint::compare`'s always-error
diagnostic. -/
def compareOld (h : MFingerprint → Nat) (disk : MDisk) (fp : MFingerprint) :
    PRes (Except OldCmpErr Unit) :=
  match disk.hashFile with
  | none => .ok (.error .ioHash)
  | some oldHash =>
    if oldHash = toHex (h fp) ∧ fp.fsStatus.upToDateB = true then .ok (.ok ())
    else
      match disk.binFile with
      | none => .ok (.error .ioBin)
      | some bs =>
        match readFingerprint (bs.length + 1) bs with
        | .panicked => .panicked
        | .nofuel => .nofuel
        | .fail => .ok (.error .parseFailed)
        | .ok (oldFp, _) =>
          match compareFP h fp oldFp with
          | .ok _ => .ok (.ok ())
          | .error r => .ok (.error (.diff r))

/-- What `fingerprint::prepare` returns: whether the unit was reported fresh
(the `r.is_ok()` branch, which prints "fresh"), the fingerprint, and the
`FingerprintState` handed back to the executor. -/
structure PrepOut where
  reportedFresh : Bool
  fp : MFingerprint
  state : MState

/-- `fingerprint::prepare`, given the fingerprint and state computed by
`calculate` and the on-disk data: fresh (with a default state) iff
`compare_old_fingerprint` succeeded, otherwise the calculated state is
returned (the truncating rewrite of the hash file does not affect the
returned value). -/
def prepareFP (h : MFingerprint → Nat) (disk : MDisk) (fp : MFingerprint)
    (st : MState) : PRes PrepOut :=
  match compareOld h disk fp with
  | .panicked => .panicked
  | .nofuel => .nofuel
  | .fail => .fail
  | .ok (.ok ()) => .ok ⟨true, fp, freshState⟩
  | .ok (.error _) => .ok ⟨false, fp, st⟩

end Ccargo

namespace Ccargo

/-! ### Internal dep-info and staleness
(`src/ccargo/src/core/fingerprint.rs`: `DepInfo`, `LocalFingerprint::find_stale_item`)

Paths at this level are the raw byte strings stored in the dep-info file;
`/`-prefixed means absolute, `join` inserts a separator (Unix `PathBuf`
semantics).  The filesystem is abstracted by the two total maps the code
queries: `mt` (cached mtimes, `none` = `stat` fails) and `disk` (file
contents, `none` = read fails). -/

/-- `DepInfoPathType`. -/
inductive MPathKind where
  | packageRootRelative
  | targetRootRelative
deriving DecidableEq

/-- `DepInfoPathType::from_u8`: `0` is package-root-relative, anything else
target-root-relative. -/
def MPathKind.ofU8 (v : Nat) : MPathKind :=
  if v = 0 then .packageRootRelative else .targetRootRelative

/-- `DepObject { file, inputs }`. -/
structure MDepObject where
  file : Nat
  inputs : List Nat
deriving DecidableEq

/-- `DepInfo` with byte-string paths (as deserialized). -/
structure MDepInfoB where
  files : List (MPathKind × Bytes)
  objects : List MDepObject
deriving DecidableEq

/-- `DepInfo::deserialize`: the two counts, then the typed path pool, then
the object entries. -/
def depInfoDeser : Rd MDepInfoB :=
  Rd.bind readU32 (fun nFiles =>
  Rd.bind readU32 (fun nObjs =>
  Rd.bind (readN nFiles (Rd.bind readU8 (fun k =>
    Rd.bind readPath (fun p => Rd.pure (MPathKind.ofU8 k, p))))) (fun files =>
  Rd.bind (readN nObjs (Rd.bind readU32 (fun f =>
    Rd.bind readU32 (fun c =>
    Rd.bind (readN c readU32) (fun inputs =>
    Rd.pure (MDepObject.mk f inputs)))))) (fun objs =>
  Rd.pure (MDepInfoB.mk files objs)))))

/-- Unix `Path::is_absolute` on raw bytes: begins with `/`. -/
def isAbsB (p : Bytes) : Bool :=
  match p with
  | 47 :: _ => true
  | _ => false

/-- Unix `PathBuf::join` on raw bytes: an absolute right side replaces the
left, otherwise a separator (if needed) and the right side are appended. -/
def joinB (a b : Bytes) : Bytes :=
  if isAbsB b then b
  else if a.isEmpty then b
  else if a.getLast? = some 47 then a ++ b
  else a ++ 47 :: b

/-- `DepInfoPathType::path`: absolute paths stay as they are, relative ones
are anchored at the package root or the target root according to the kind. -/
def kindPath (k : MPathKind) (p pkgRoot targetRoot : Bytes) : Bytes :=
  if isAbsB p then p
  else
    match k with
    | .packageRootRelative => joinB pkgRoot p
    | .targetRootRelative => joinB targetRoot p

/-- `StaleItem`. -/
inductive MStale where
  | list (items : List MStale)
  | missingFile (p : Bytes)
  | changedFile (reference : Bytes) (referenceMtime : Nat) (stale : Bytes) (staleMtime : Nat)

/-- `fingerprint::stale_item`: a path with no mtime is `MissingFile`; one
whose mtime is `>=` the reference mtime is `ChangedFile`; otherwise the path
is not stale. -/
def staleItemM (mt : Bytes → Option Nat) (reference : Bytes) (referenceMtime : Nat)
    (p : Bytes) : Option MStale :=
  match mt p with
  | none => some (.missingFile p)
  | some m =>
    if referenceMtime ≤ m then some (.changedFile reference referenceMtime p m)
    else none

/-- First stale entry in a path list. -/
def firstStale (mt : Bytes → Option Nat) (reference : Bytes) (referenceMtime : Nat) :
    List Bytes → Option MStale
  | [] => none
  | p :: rest =>
    match staleItemM mt reference referenceMtime p with
    | some s => some s
    | none => firstStale mt reference referenceMtime rest

/-- `fingerprint::find_stale_file` (used by the `RerunIfChanged` branch). -/
def findStaleFile (mt : Bytes → Option Nat) (reference : Bytes) (paths : List Bytes) :
    Option MStale :=
  match mt reference with
  | none => some (.missingFile reference)
  | some rm => firstStale mt reference rm paths

/-- Outcome of one of `find_stale_item`'s accumulation loops: an early
return (`check_all = false` hit a stale item) or fall-through with the
updated set and accumulated items. -/
inductive CdiLoop where
  | early (s : MStale) (upd : Finset Bytes)
  | through (upd : Finset Bytes) (items : List MStale)

/-- The first loop of the `CheckDepInfo` branch: check every pooled path
against the dep-info mtime, inserting stale paths into `updated`. -/
def cdiPathsLoop (mt : Bytes → Option Nat) (dip : Bytes) (dm : Nat) (checkAll : Bool) :
    List Bytes → Finset Bytes → List MStale → CdiLoop
  | [], upd, items => .through upd items
  | p :: rest, upd, items =>
    match staleItemM mt dip dm p with
    | none => cdiPathsLoop mt dip dm checkAll rest upd items
    | some s =>
      let upd' := insert p upd
      if checkAll then cdiPathsLoop mt dip dm checkAll rest upd' (items ++ [s])
      else .early s upd'

/-- The inner loop over an object's inputs: the first stale input (indexing
out of the pool panics, as `paths[*input as usize]` would). -/
def cdiFirstStaleInput (mt : Bytes → Option Nat) (dip : Bytes) (dm : Nat)
    (paths : List Bytes) : List Nat → PRes (Option MStale)
  | [] => .ok none
  | i :: rest =>
    match paths[i]? with
    | none => .panicked
    | some ip =>
      match staleItemM mt dip dm ip with
      | some s => .ok (some s)
      | none => cdiFirstStaleInput mt dip dm paths rest

/-- The second loop of the `CheckDepInfo` branch: for every object whose
inputs contain a stale path, insert the owning source into `updated`
(indexing `paths[obj.file]` out of bounds panics). -/
def cdiObjsLoop (mt : Bytes → Option Nat) (dip : Bytes) (dm : Nat) (checkAll : Bool)
    (paths : List Bytes) : List MDepObject → Finset Bytes → List MStale → PRes CdiLoop
  | [], upd, items => .ok (.through upd items)
  | obj :: rest, upd, items =>
    match paths[obj.file]? with
    | none => .panicked
    | some src =>
      match cdiFirstStaleInput mt dip dm paths obj.inputs with
      | .panicked => .panicked
      | .fail => .fail
      | .nofuel => .nofuel
      | .ok none => cdiObjsLoop mt dip dm checkAll paths rest upd items
      | .ok (some s) =>
        let upd' := insert src upd
        if checkAll then cdiObjsLoop mt dip dm checkAll paths rest upd' (items ++ [s])
        else .ok (.early s upd')

/-- Collapse the accumulated items as the `CheckDepInfo` branch does:
none / the single item / `StaleItem::List`. -/
def cdiCollapse : List MStale → Option MStale
  | [] => none
  | [s] => some s
  | items => some (.list items)

/-- `LocalFingerprint::find_stale_item`, `CheckDepInfo` branch: read and
deserialize the dep-info file (missing file or a `None` parse give
`MissingFile`; note the deserializer itself panics rather than parse-fails
on malformed content), resolve the pooled paths, then run the two loops. -/
def findStaleCDI (mt : Bytes → Option Nat) (disk : Bytes → Option Bytes)
    (pkgRoot targetRoot depInfoRel : Bytes) (checkAll : Bool)
    (updated : Finset Bytes) : PRes (Option MStale × Finset Bytes) :=
  let dip := joinB targetRoot depInfoRel
  match disk dip with
  | none => .ok (some (.missingFile dip), updated)
  | some data =>
    match depInfoDeser data with
    | .panicked => .panicked
    | .nofuel => .nofuel
    | .fail => .ok (some (.missingFile dip), updated)
    | .ok (info, _) =>
      let paths := info.files.map (fun kp => kindPath kp.1 kp.2 pkgRoot targetRoot)
      match mt dip with
      | none => .ok (some (.missingFile dip), updated)
      | some dm =>
        match cdiPathsLoop mt dip dm checkAll paths updated [] with
        | .early s upd => .ok (some s, upd)
        | .through upd items =>
          match cdiObjsLoop mt dip dm checkAll paths info.objects upd items with
          | .panicked => .panicked
          | .fail => .fail
          | .nofuel => .nofuel
          | .ok (.early s upd') => .ok (some s, upd')
          | .ok (.through upd' items') => .ok (cdiCollapse items', upd')

/-- `LocalFingerprint::find_stale_item` (both variants); `updated` is
`FingerprintState.files`. -/
def findStaleItemM (mt : Bytes → Option Nat) (disk : Bytes → Option Bytes)
    (pkgRoot targetRoot : Bytes) (updated : Finset Bytes) :
    MLocalFP Bytes → PRes (Option MStale × Finset Bytes)
  | .rerunIfChanged output ps =>
    .ok (findStaleFile mt (joinB targetRoot output) (ps.map (joinB pkgRoot)), updated)
  | .checkDepInfo dep ca => findStaleCDI mt disk pkgRoot targetRoot dep ca updated

end Ccargo

namespace Ccargo

/-! ### Component paths and the step protocol
(`src/ccargo/src/utils/paths.rs`, `src/ccargo/src/core/step.rs`,
`fingerprint::calculate_step`)

Here paths are modelled structurally: an absolute flag plus the list of
components (each a character list).  Text lines are character lists. -/

/-- A path component / a text fragment. -/
abbrev CStr := List Char

/-- A structured path. -/
structure CPath where
  isAbs : Bool
  comps : List CStr
deriving DecidableEq

/-- The component loop of `paths::normalize`: `.` is skipped, `..` pops the
output (a no-op on an empty output, as `PathBuf::pop`), anything else is
pushed. -/
def normComps : List CStr → List CStr → List CStr
  | [], acc => acc
  | c :: rest, acc =>
    if c = ".".toList then normComps rest acc
    else if c = "..".toList then normComps rest acc.dropLast
    else normComps rest (acc ++ [c])

/-- `paths::normalize`. -/
def normalizeC (p : CPath) : CPath := ⟨p.isAbs, normComps p.comps []⟩

/-- `PathBuf::join` on structured paths. -/
def joinC (a p : CPath) : CPath :=
  if p.isAbs then p else ⟨a.isAbs, a.comps ++ p.comps⟩

/-- Modelled from the spec: `paths::abs(p, cwd)` "joins+normalizes" — the
function itself is not under `src/` (only its callers are). -/
def absC (p cwd : CPath) : CPath := normalizeC (joinC cwd p)

/-- `Path::strip_prefix`: succeeds iff `root` is a literal component prefix,
yielding the (relative) remainder. -/
def stripRoot (root p : CPath) : Option CPath :=
  if p.isAbs = root.isAbs ∧ root.comps.isPrefixOf p.comps then
    some ⟨false, p.comps.drop root.comps.length⟩
  else none

/-- Split a text path into components at `/`, dropping empty components, as
`Path::components` does. -/
def splitSlash : List Char → CStr → List CStr
  | [], cur => if cur = [] then [] else [cur.reverse]
  | c :: r, cur =>
    if c = '/' then
      if cur = [] then splitSlash r [] else cur.reverse :: splitSlash r []
    else splitSlash r (c :: cur)

/-- `Path::new` on a text path (Unix): absolute iff it starts with `/`. -/
def strToPath (s : List Char) : CPath :=
  ⟨(match s with | '/' :: _ => true | _ => false), splitSlash s []⟩

/-- Strip a literal text prefix (`str::strip_prefix`). -/
def stripPre (pre s : List Char) : Option (List Char) :=
  if pre.isPrefixOf s then some (s.drop pre.length) else none

/-- `step::Message`. -/
inductive StepMsg where
  | raw (line : List Char)
  | rerunIfChanged (path : List Char)
deriving DecidableEq

/-- `step::Message::parse`: a `ccargo:` line must continue with
`rerun-if-changed:` (anything else is a directive parse error); other lines
are raw output. -/
def parseStepMsg (line : List Char) : Except (List Char) StepMsg :=
  match stripPre "ccargo:".toList line with
  | none => .ok (.raw line)
  | some rest =>
    match stripPre "rerun-if-changed:".toList rest with
    | some p => .ok (.rerunIfChanged p)
    | none => .error line

/-- `DepInfo` with structured paths (as built by `Step::run`). -/
structure MDepInfoC where
  files : List (MPathKind × CPath)
  objects : List MDepObject
deriving DecidableEq

/-- Modelled from the spec: `DepInfo::add_pkg_relative` (not under `src/`;
`Step::run` calls it for each accepted rerun-if-changed path) appends a
package-root-relative entry to the path pool. -/
def MDepInfoC.addPkgRelative (d : MDepInfoC) (p : CPath) : MDepInfoC :=
  { d with files := d.files ++ [(.packageRootRelative, p)] }

/-- Modelled from the spec: `DepInfo::is_empty` (not under `src/`) — an
empty pool and no objects. -/
def MDepInfoC.isEmptyD (d : MDepInfoC) : Bool :=
  d.files.isEmpty && d.objects.isEmpty

/-- The per-line effect of `Step::run`'s stdout loop on the collected
`DepInfo`: a `ccargo:rerun-if-changed:` line whose path resolves inside the
package root is recorded package-root-relative; parse errors and raw lines
leave it unchanged. -/
def stepRunLine (root : CPath) (di : MDepInfoC) (line : List Char) : MDepInfoC :=
  match parseStepMsg line with
  | .error _ => di
  | .ok (.raw _) => di
  | .ok (.rerunIfChanged p) =>
    match stripRoot root (absC (strToPath p) root) with
    | some rel => di.addPkgRelative rel
    | none => di

/-- The stdout-processing loop of `Step::run` restricted to its effect on
the collected `DepInfo`. -/
def stepRunDepInfo (root : CPath) (lines : List (List Char)) : MDepInfoC :=
  lines.foldl (stepRunLine root) ⟨[], []⟩

/-- The step fields `calculate_step` and `Step::run` use for paths. -/
structure MStep where
  name : CStr
  pkgUnique : CStr
deriving DecidableEq

/-- `Step::dep_info_path`: `<target_root>/.fingerprint/<pkg-unique>/<name>.d`
(step names carry no extension, so `set_extension` appends `.d`). -/
def stepDepInfoPath (targetRoot : CPath) (s : MStep) : CPath :=
  joinC targetRoot ⟨false, [".fingerprint".toList, s.pkgUnique, s.name ++ ".d".toList]⟩

/-- The `local` list built by `fingerprint::calculate_step`: exactly one
`CheckDepInfo` with the dep-info path relative to the target root and
`check_all = false`.  (`Step::run` never modifies the fingerprint — the
`add_rerun_if_changed` method has no caller — so this is also the local
list at `write_to_disk` time.) -/
def calcStepLocal (targetRoot : CPath) (s : MStep) : List (MLocalFP CPath) :=
  [.checkDepInfo ((stripRoot targetRoot (stepDepInfoPath targetRoot s)).getD ⟨false, []⟩) false]

end Ccargo

namespace Ccargo

/-! ### Specification-side definitions

These restate parts of the claims in the specification's own words, for
comparison against the embedded implementation. -/

/-- Spec wording for `check_all = false`: "the first stale item found" —
first the listed paths in pool order, then the objects' header inputs in
object order.  `none` if nothing is stale (out-of-range indices are ignored
here; the implementation panics on them, which the theorems account for
separately). -/
def cdiSpecFirst (mt : Bytes → Option Nat) (dip : Bytes) (dm : Nat)
    (paths : List Bytes) (objs : List MDepObject) : Option MStale :=
  match firstStale mt dip dm paths with
  | some s => some s
  | none =>
    match objs.filterMap (fun obj =>
      firstStale mt dip dm (obj.inputs.filterMap (fun i => paths[i]?))) with
    | [] => none
    | s :: _ => some s

/-- Spec wording for the step protocol: the package-root-relative paths of
the `ccargo:rerun-if-changed:` lines, in line order (lines whose path does
not resolve inside the package root are dropped). -/
def specRerunPaths (root : CPath) (lines : List (List Char)) : List CPath :=
  lines.filterMap (fun line =>
    (stripPre "ccargo:rerun-if-changed:".toList line).bind
      (fun p => stripRoot root (absC (strToPath p) root)))

end Ccargo

namespace Ccargo

/-! ### Concrete instances used by counterexamples and witnesses -/

/-- Target `B`: a public include `ib`, a private include `ibPriv`, a public
define `DB`; no dependencies. -/
def exTargetB : CTarget := ⟨"B", [], [("ib", true), ("ibPriv", false)], [(("DB", none), true)]⟩

/-- Target `A`: depends on `B` through a Private edge; public include `ia`. -/
def exTargetA : CTarget := ⟨"A", [("B", false)], [("ia", true)], []⟩

/-- Target `C`: depends on `A` through a Public edge. -/
def exTargetC : CTarget := ⟨"C", [("A", true)], [], []⟩

/-- The unit-map environment for the three targets above. -/
def exEnv : String → Option CTarget := fun n =>
  if n = "A" then some exTargetA else if n = "B" then some exTargetB else none

/-- An empty `TargetDeps` accumulator. -/
def emptyTD : TgtDeps := ⟨[], ∅, []⟩

/-- A step `gen` of package `pkg-abc`. -/
def exStep : MStep := ⟨"gen".toList, "pkg-abc".toList⟩

/-- A target root `/proj/target/debug`. -/
def exTgtRoot : CPath := ⟨true, ["proj".toList, "target".toList, "debug".toList]⟩

/-- A package root `/home/pkg`. -/
def exPkgRoot : CPath := ⟨true, ["home".toList, "pkg".toList]⟩

/-- Byte-level package root `/p`. -/
def exPkgRootB : Bytes := [47, 112]

/-- Byte-level target root `/t`. -/
def exTgtRootB : Bytes := [47, 116]

/-- A serialized dep-info: path pool `s` (a source) and `h` (a header), both
package-root-relative, and one object `{file: 0, inputs: [1]}`. -/
def exDepBytes : Bytes :=
  [2,0,0,0] ++ [1,0,0,0]
  ++ [0] ++ [1,0,0,0,0,0,0,0] ++ [115]
  ++ [0] ++ [1,0,0,0,0,0,0,0] ++ [104]
  ++ [0,0,0,0] ++ [1,0,0,0] ++ [1,0,0,0]

/-- The parsed form of `exDepBytes`. -/
def exDepInfo : MDepInfoB :=
  ⟨[(.packageRootRelative, [115]), (.packageRootRelative, [104])], [⟨0, [1]⟩]⟩

/-- Mtimes: the dep-info file `/t/d` at 10, the source `/p/s` at 5 (older),
the header `/p/h` at 10 (not older — stale). -/
def exMt : Bytes → Option Nat := fun p =>
  if p = [47, 116, 47, 100] then some 10
  else if p = [47, 112, 47, 115] then some 5
  else if p = [47, 112, 47, 104] then some 10
  else none

/-- Disk contents: only the dep-info file `/t/d` exists. -/
def exDisk : Bytes → Option Bytes := fun p =>
  if p = [47, 116, 47, 100] then some exDepBytes else none

/-- Disk contents where the dep-info file `/t/d` exists but is empty (a
malformed serialization). -/
def exDiskEmpty : Bytes → Option Bytes := fun p =>
  if p = [47, 116, 47, 100] then some ([] : Bytes) else none

/-- A fingerprint whose hashes are all zero, with stale filesystem status
and no deps, locals or outputs. -/
def exFp : MFingerprint := .mk 0 0 0 .stale [] [] []

/-- A disk state whose stored hash (`"x"`) differs from any 16-hex string
and whose `.hash.bin` is empty (truncated). -/
def exDisk1 : MDisk := ⟨some ['x'], some []⟩

/-- A reader that never grows its input: whenever it succeeds, the remaining
bytes are a suffix-length-bounded part of the input (`BinaryReader` only
ever advances its slice). -/
def RdMono {α : Type} (m : Rd α) : Prop :=
  ∀ bs a r, m bs = .ok (a, r) → r.length ≤ bs.length

/-- A reader that cannot exhaust the fuel-indexed embedding on inputs
shorter than `k` (the real Rust code has no fuel; this is how the embedding
artifact is ruled out). -/
def RdNoNF {α : Type} (k : Nat) (m : Rd α) : Prop :=
  ∀ bs, bs.length < k → m bs ≠ .nofuel

/-- An up-to-date fingerprint with all-zero hashes. -/
def c1FpU : MFingerprint := .mk 0 0 0 (.upToDate []) [] [] []

/-- Disk contents whose stored hash equals `to_hex` of the zero hash (the
fresh case). -/
def c1DiskFresh : MDisk := ⟨some (toHex 0), none⟩

/-- Disk contents with no readable fingerprint files at all. -/
def c1DiskNoHash : MDisk := ⟨none, none⟩

end Ccargo

namespace Ccargo

/-- Union of a list of layers. -/
def unionLayers (L : List (Finset Nat)) : Finset Nat := L.foldr (· ∪ ·) ∅

end Ccargo

namespace Ccargo

/-! ## Theorems -/

/-- Helper: `qCalls` from a state with `count = c` and `capacity = cap`,
`c + k = cap`, yields `k` successful slots `c, c+1, …` then a panic. -/
theorem qCalls_spec (cap : Nat) : ∀ (k c : Nat) (s : QState),
    s.capacity = cap → s.count = c → c + k = cap →
    qCalls s (k + 1) = (List.range' c k).map PRes.ok ++ [PRes.panicked] := by
  intro k
  induction k with
  | zero =>
    intro c s hcap hcnt hsum
    simp only [qCalls, qAdd, hcap, hcnt]
    have : ¬ c < cap := by omega
    simp [this]
  | succ k ih =>
    intro c s hcap hcnt hsum
    have hlt : c < cap := by omega
    have hq : qAdd s = .ok (c, { s with count := c + 1 }) := by
      simp only [qAdd, hcap, hcnt, if_pos hlt]
    have hone : qCalls s (k + 1 + 1)
        = .ok c :: qCalls { s with count := c + 1 } (k + 1) := by
      show (match qAdd s with
            | .ok (i, s') => PRes.ok i :: qCalls s' (k + 1)
            | _ => [.panicked]) = _
      rw [hq]
    rw [hone, ih (c + 1) _ (by simp [hcap]) rfl (by omega)]
    simp [List.range'_succ]

/-- C10: For every `MsgQueue` of capacity `cap`, successive `writer()` calls
receive the slot indices `0, 1, …, cap-1` in call order (so display order
equals registration order), and the next call — the first beyond the
capacity — panics in the `Inner::add` assertion ("Requested too many
writers") instead of returning a writer. -/
theorem c10_writer_slots (cap : Nat) :
    qCalls (qInit cap 0) (cap + 1) = (List.range cap).map PRes.ok ++ [PRes.panicked] := by
  have h := qCalls_spec cap cap 0 (qInit cap 0) rfl rfl (by omega)
  rw [h, List.range_eq_range']

/-- C8: the ordered message queue does not always produce the slot-ordered
concatenation of the writers' bytes.  With two writers, the run
`w1.push "a"; drop w0; w1.push "b"; drop w1` puts `"ba"` = `[98, 97]` into
the sink: when `finish(0)` advances `current` to slot 1, slot 1's buffered
`"a"` is not flushed, so the subsequent direct write of `"b"` overtakes it.
The claim's expected sink is `[] ++ [97] ++ [98]` — writer 0's bytes then
writer 1's bytes in push order — which differs. -/
theorem c8_msg_queue_reorders :
    (qRun (qInit 2 2) [.push 1 [97], .drop 0, .push 1 [98], .drop 1]).sink = [98, 97] ∧
    ([98, 97] : Bytes) ≠ [] ++ [97] ++ [98] := by
  constructor
  · rfl
  · decide

/-- C2: `Context::compile` performs no cycle check: on the unit graph with
the 2-cycle `A → B → A` (adjacency `[[1], [0]]`), which `Graph::cycles()`
itself detects as the SCC `[1, 0]`, every `GraphParallelIter::next` call
yields the empty group and removes nothing, so the stage loop in `compile`
spins forever without reporting the cycle, failing, or dispatching any
unit.  (`UnitMap::build_graph_recursive` likewise recurses without a visited
check and does not terminate on such dependencies.) -/
theorem c2_compile_cycle_spins :
    detectCycles [[1], [0]] = [[1, 0]] ∧
    stageGroup [[1], [0]] (Finset.range 2) = ∅ ∧
    ∀ n : Nat, remIter [[1], [0]] (Finset.range 2) n = Finset.range 2 := by
  refine ⟨by decide, by decide, ?_⟩
  intro n
  induction n with
  | zero => rfl
  | succ n ih =>
    have hstep : stageStep [[1], [0]] (Finset.range 2) = Finset.range 2 := by decide
    calc remIter [[1], [0]] (Finset.range 2) (n + 1)
        = remIter [[1], [0]] (stageStep [[1], [0]] (Finset.range 2)) n := rfl
      _ = remIter [[1], [0]] (Finset.range 2) n := by rw [hstep]
      _ = Finset.range 2 := ih

/-- C5: on the graph `0→{1,2,3}, 1→{2,4}, 2→{3,0,1}, 3→{0,1,2}, 4→{}` the
single non-trivial SCC is `{0,1,2,3}` (node 4 is outside it).  The node
with the fewest non-cycle outbound links is any of `0, 2, 3` (zero each,
versus one for node 1), yet `remove_from_graph` removes the edge `(1, 2)`
— an edge of node `1` — because its `min_by_key` key
`g.graph[*n].iter().map(|i| is_cycle.get(*i)).count()` counts **all**
outbound links (`map` does not filter), so it picks the node with the
smallest total out-degree, contradicting the documented heuristic. -/
theorem c5_remove_cycles_picks_total_degree :
    detectCycles [[1,2,3],[2,4],[3,0,1],[0,1,2],[]] = [[3, 2, 1, 0]] ∧
    (removeFromGraph [[1,2,3],[2,4],[3,0,1],[0,1,2],[]] [[3, 2, 1, 0]]).map Prod.fst
      = some [(1, 2)] ∧
    (let isC : Nat → Bool := fun n => [[3, 2, 1, 0]].any (fun c => c.contains n)
     nonCycleLinkCount isC [[1,2,3],[2,4],[3,0,1],[0,1,2],[]] 1 = 1 ∧
     nonCycleLinkCount isC [[1,2,3],[2,4],[3,0,1],[0,1,2],[]] 0 = 0 ∧
     nonCycleLinkCount isC [[1,2,3],[2,4],[3,0,1],[0,1,2],[]] 2 = 0 ∧
     nonCycleLinkCount isC [[1,2,3],[2,4],[3,0,1],[0,1,2],[]] 3 = 0) := by
  refine ⟨by decide, by decide, by decide, by decide, by decide, by decide⟩

/-- C9: `Fingerprint::deserialize` is not total: on the empty byte string
(a zero-length `.hash.bin`), the very first `read_u64` executes
`split_at(8)` on an empty slice and panics, so deserialization neither
returns a fingerprint nor reports failure. -/
theorem c9_deserialize_panics_empty :
    fingerprintDeserialize [] = .panicked ∧
    fingerprintDeserialize [] ≠ .fail ∧
    ∀ fp : MFingerprint, fingerprintDeserialize [] ≠ .ok fp := by
  have h : fingerprintDeserialize [] = .panicked := rfl
  refine ⟨h, by rw [h]; nofun, ?_⟩
  intro fp
  rw [h]; nofun

end Ccargo

namespace Ccargo

theorem mem_stageGroup {adj : List (List Nat)} {rem : Finset Nat} {a : Nat} :
    a ∈ stageGroup adj rem ↔ a ∈ rem ∧ ∀ b ∈ adj.getD a [], b ∉ rem := by
  simp [stageGroup]

theorem stageGroup_subset (adj : List (List Nat)) (rem : Finset Nat) :
    stageGroup adj rem ⊆ rem := Finset.filter_subset _ _

/-- Progress: on a ranked (acyclic) remaining set, the next group is
nonempty — the rank-minimal remaining node has no remaining successor. -/
theorem stageGroup_nonempty {adj : List (List Nat)} {rem : Finset Nat} {rank : Nat → Nat}
    (hrk : ∀ a ∈ rem, ∀ b ∈ adj.getD a [], rank b < rank a)
    (hne : rem.Nonempty) : (stageGroup adj rem).Nonempty := by
  obtain ⟨a, ha, hmin⟩ := Finset.exists_min_image rem rank hne
  refine ⟨a, mem_stageGroup.mpr ⟨ha, fun b hb hbrem => ?_⟩⟩
  exact absurd (hrk a ha b hb) (not_lt.mpr (hmin b hbrem))

theorem mem_unionLayers {L : List (Finset Nat)} {x : Nat} :
    x ∈ unionLayers L ↔ ∃ i, i < L.length ∧ x ∈ L.getD i ∅ := by
  induction L with
  | nil => simp [unionLayers]
  | cons l L ih =>
    simp only [unionLayers, List.foldr_cons, Finset.mem_union]
    constructor
    · rintro (hx | hx)
      · exact ⟨0, by simp, by simpa using hx⟩
      · obtain ⟨i, hi, hxi⟩ := ih.mp hx
        exact ⟨i + 1, by simpa using hi, by simpa using hxi⟩
    · rintro ⟨i, hi, hxi⟩
      cases i with
      | zero => exact Or.inl (by simpa using hxi)
      | succ i =>
        exact Or.inr (ih.mpr ⟨i, by simpa using hi, by simpa using hxi⟩)

theorem layer_subset_unionLayers {L : List (Finset Nat)} {i : Nat} (hi : i < L.length) :
    L.getD i ∅ ⊆ unionLayers L := by
  intro x hx
  exact mem_unionLayers.mpr ⟨i, hi, hx⟩

/-- The layers produced from any remaining set `rem ⊆ nodes` with enough
fuel: they union to `rem`, are pairwise disjoint, and every edge of a layer
member into `rem` targets a strictly earlier layer. -/
theorem stagesList_spec (adj : List (List Nat)) (rank : Nat → Nat)
    (hrk : ∀ a, a < adj.length → ∀ b ∈ adj.getD a [], rank b < rank a) :
    ∀ (fuel : Nat) (rem : Finset Nat), rem ⊆ Finset.range adj.length → rem.card ≤ fuel →
    unionLayers (stagesList adj fuel rem) = rem ∧
    (∀ i j, i < j → j < (stagesList adj fuel rem).length →
      Disjoint ((stagesList adj fuel rem).getD i ∅) ((stagesList adj fuel rem).getD j ∅)) ∧
    (∀ i, i < (stagesList adj fuel rem).length →
      ∀ a ∈ (stagesList adj fuel rem).getD i ∅, ∀ b ∈ adj.getD a [], b ∈ rem →
        ∃ j, j < i ∧ b ∈ (stagesList adj fuel rem).getD j ∅) := by
  intro fuel
  induction fuel with
  | zero =>
    intro rem hsub hcard
    have hrem : rem = ∅ := Finset.card_eq_zero.mp (Nat.le_zero.mp hcard)
    subst hrem
    refine ⟨rfl, ?_, ?_⟩
    · intro i j _ hj; simp [stagesList] at hj
    · intro i hi; simp [stagesList] at hi
  | succ fuel ih =>
    intro rem hsub hcard
    by_cases hrem : rem = ∅
    · subst hrem
      refine ⟨by simp [stagesList, unionLayers], ?_, ?_⟩
      · intro i j _ hj; simp [stagesList] at hj
      · intro i hi; simp [stagesList] at hi
    · have hne : rem.Nonempty := Finset.nonempty_iff_ne_empty.mpr hrem
      have hrk' : ∀ a ∈ rem, ∀ b ∈ adj.getD a [], rank b < rank a := fun a ha =>
        hrk a (Finset.mem_range.mp (hsub ha))
      have hgne : (stageGroup adj rem).Nonempty := stageGroup_nonempty hrk' hne
      have hgsub := stageGroup_subset adj rem
      have hunfold : stagesList adj (fuel + 1) rem
          = stageGroup adj rem :: stagesList adj fuel (stageStep adj rem) := by
        simp [stagesList, hrem]
      have hsub' : stageStep adj rem ⊆ Finset.range adj.length :=
        fun x hx => hsub (Finset.mem_sdiff.mp hx).1
      have hcard' : (stageStep adj rem).card ≤ fuel := by
        have h1 : (stageStep adj rem).card = rem.card - (stageGroup adj rem).card :=
          Finset.card_sdiff hgsub
        have h2 : 0 < (stageGroup adj rem).card := Finset.card_pos.mpr hgne
        omega
      obtain ⟨ihu, ihd, ihe⟩ := ih (stageStep adj rem) hsub' hcard'
      have hunion : unionLayers (stagesList adj (fuel + 1) rem) = rem := by
        rw [hunfold]
        show stageGroup adj rem ∪ unionLayers (stagesList adj fuel (stageStep adj rem)) = rem
        rw [ihu]
        exact Finset.union_sdiff_of_subset hgsub
      refine ⟨hunion, ?_, ?_⟩
      · intro i j hij hj
        rw [hunfold] at hj ⊢
        cases i with
        | zero =>
          cases j with
          | zero => omega
          | succ j =>
            simp only [List.getD_cons_zero, List.getD_cons_succ]
            have hj' : j < (stagesList adj fuel (stageStep adj rem)).length := by
              simpa using hj
            have hlay : (stagesList adj fuel (stageStep adj rem)).getD j ∅ ⊆ stageStep adj rem := by
              intro x hx
              exact ihu ▸ layer_subset_unionLayers hj' hx
            exact (Finset.disjoint_sdiff (s := stageGroup adj rem) (t := rem)).mono_right hlay
        | succ i =>
          cases j with
          | zero => omega
          | succ j =>
            simp only [List.getD_cons_succ]
            exact ihd i j (by omega) (by simpa using hj)
      · intro i hi a ha b hb hbrem
        rw [hunfold] at hi ha ⊢
        cases i with
        | zero =>
          simp only [List.getD_cons_zero] at ha
          exact absurd hbrem ((mem_stageGroup.mp ha).2 b hb)
        | succ i =>
          simp only [List.getD_cons_succ] at ha
          by_cases hbg : b ∈ stageGroup adj rem
          · exact ⟨0, by omega, by simpa using hbg⟩
          · have hbrem' : b ∈ stageStep adj rem := Finset.mem_sdiff.mpr ⟨hbrem, hbg⟩
            obtain ⟨j, hj, hbj⟩ := ihe i (by simpa using hi) a ha b hb hbrem'
            exact ⟨j + 1, by omega, by simpa using hbj⟩

/-- On a ranked remaining set with enough fuel, iterating `next` empties
the remaining set (the iterator then returns `None` and the loop ends). -/
theorem remIter_empty (adj : List (List Nat)) (rank : Nat → Nat)
    (hrk : ∀ a, a < adj.length → ∀ b ∈ adj.getD a [], rank b < rank a) :
    ∀ (fuel : Nat) (rem : Finset Nat), rem ⊆ Finset.range adj.length → rem.card ≤ fuel →
    remIter adj rem fuel = ∅ := by
  intro fuel
  induction fuel with
  | zero =>
    intro rem _ hcard
    exact Finset.card_eq_zero.mp (Nat.le_zero.mp hcard)
  | succ fuel ih =>
    intro rem hsub hcard
    show remIter adj (stageStep adj rem) fuel = ∅
    by_cases hrem : rem = ∅
    · subst hrem
      exact ih _ (by simp [stageStep]) (by simp [stageStep])
    · have hne : rem.Nonempty := Finset.nonempty_iff_ne_empty.mpr hrem
      have hrk' : ∀ a ∈ rem, ∀ b ∈ adj.getD a [], rank b < rank a := fun a ha =>
        hrk a (Finset.mem_range.mp (hsub ha))
      have hgne : (stageGroup adj rem).Nonempty := stageGroup_nonempty hrk' hne
      refine ih _ (fun x hx => hsub (Finset.mem_sdiff.mp hx).1) ?_
      have h1 : (stageStep adj rem).card = rem.card - (stageGroup adj rem).card :=
        Finset.card_sdiff (stageGroup_subset adj rem)
      have h2 : 0 < (stageGroup adj rem).card := Finset.card_pos.mpr hgne
      omega

/-- C6: for every DAG — adjacency `adj` with in-range edges (`hwf`) and a
rank function witnessing acyclicity (`hrk`) — the layers yielded by
`parallel_stages()` partition the node set (every node lies in some layer,
the layers are pairwise disjoint and contain only nodes), every edge
`a → b` lands in a strictly earlier layer than `a`'s, and the iterator
terminates: after at most `adj.length` steps the remaining set is empty, so
`next` returns `None`. -/
theorem c6_parallel_stages_dag (adj : List (List Nat)) (rank : Nat → Nat)
    (hwf : ∀ a, a < adj.length → ∀ b ∈ adj.getD a [], b < adj.length)
    (hrk : ∀ a, a < adj.length → ∀ b ∈ adj.getD a [], rank b < rank a) :
    (∀ x, x < adj.length →
      ∃ i, i < (stagesList adj adj.length (Finset.range adj.length)).length ∧
        x ∈ (stagesList adj adj.length (Finset.range adj.length)).getD i ∅) ∧
    (∀ i j, i < j → j < (stagesList adj adj.length (Finset.range adj.length)).length →
      Disjoint ((stagesList adj adj.length (Finset.range adj.length)).getD i ∅)
        ((stagesList adj adj.length (Finset.range adj.length)).getD j ∅)) ∧
    (∀ i, i < (stagesList adj adj.length (Finset.range adj.length)).length →
      ∀ a ∈ (stagesList adj adj.length (Finset.range adj.length)).getD i ∅,
        a < adj.length) ∧
    (∀ i, i < (stagesList adj adj.length (Finset.range adj.length)).length →
      ∀ a ∈ (stagesList adj adj.length (Finset.range adj.length)).getD i ∅,
        ∀ b ∈ adj.getD a [],
          ∃ j, j < i ∧ b ∈ (stagesList adj adj.length (Finset.range adj.length)).getD j ∅) ∧
    remIter adj (Finset.range adj.length) adj.length = ∅ := by
  obtain ⟨hu, hd, he⟩ := stagesList_spec adj rank hrk adj.length (Finset.range adj.length)
    (fun x hx => hx) (by simp)
  refine ⟨?_, hd, ?_, ?_, ?_⟩
  · intro x hx
    have : x ∈ unionLayers (stagesList adj adj.length (Finset.range adj.length)) := by
      rw [hu]; exact Finset.mem_range.mpr hx
    exact mem_unionLayers.mp this
  · intro i hi a ha
    have : a ∈ unionLayers (stagesList adj adj.length (Finset.range adj.length)) :=
      layer_subset_unionLayers hi ha
    rw [hu] at this
    exact Finset.mem_range.mp this
  · intro i hi a ha b hb
    have haN : a < adj.length := by
      have : a ∈ unionLayers (stagesList adj adj.length (Finset.range adj.length)) :=
        layer_subset_unionLayers hi ha
      rw [hu] at this
      exact Finset.mem_range.mp this
    exact he i hi a ha b hb (Finset.mem_range.mpr (hwf a haN b hb))
  · exact remIter_empty adj rank hrk adj.length (Finset.range adj.length)
      (fun x hx => hx) (by simp)

/-- Witness for C6 on the concrete DAG `0 → 1 → 2`, ranked by `2 - a`. -/
theorem c6_parallel_stages_dag_witness :
    ((∀ a, a < 3 → ∀ b ∈ [[1], [2], []].getD a ([] : List Nat), b < 3) ∧
     (∀ a, a < 3 → ∀ b ∈ [[1], [2], []].getD a ([] : List Nat), 2 - b < 2 - a)) ∧
    ((∀ x, x < ([[1], [2], []] : List (List Nat)).length →
      ∃ i, i < (stagesList [[1], [2], []] 3 (Finset.range 3)).length ∧
        x ∈ (stagesList [[1], [2], []] 3 (Finset.range 3)).getD i ∅) ∧
    (∀ i j, i < j → j < (stagesList [[1], [2], []] 3 (Finset.range 3)).length →
      Disjoint ((stagesList [[1], [2], []] 3 (Finset.range 3)).getD i ∅)
        ((stagesList [[1], [2], []] 3 (Finset.range 3)).getD j ∅)) ∧
    (∀ i, i < (stagesList [[1], [2], []] 3 (Finset.range 3)).length →
      ∀ a ∈ (stagesList [[1], [2], []] 3 (Finset.range 3)).getD i ∅, a < 3) ∧
    (∀ i, i < (stagesList [[1], [2], []] 3 (Finset.range 3)).length →
      ∀ a ∈ (stagesList [[1], [2], []] 3 (Finset.range 3)).getD i ∅,
        ∀ b ∈ [[1], [2], []].getD a ([] : List Nat),
          ∃ j, j < i ∧ b ∈ (stagesList [[1], [2], []] 3 (Finset.range 3)).getD j ∅) ∧
    remIter [[1], [2], []] (Finset.range 3) 3 = ∅) :=
  ⟨⟨by decide, by decide⟩,
   c6_parallel_stages_dag [[1], [2], []] (fun a => 2 - a) (by decide) (by decide)⟩

end Ccargo

namespace Ccargo

theorem mem_foldl_insert (l : List (String × Bool)) (s0 : Finset String) (x : String) :
    x ∈ l.foldl (fun s (p : String × Bool) => insert p.1 s) s0 ↔
      x ∈ s0 ∨ ∃ p ∈ l, p.1 = x := by
  induction l generalizing s0 with
  | nil => simp
  | cons p l ih =>
    simp only [List.foldl_cons, ih, Finset.mem_insert, List.mem_cons]
    constructor
    · rintro ((h | h) | ⟨q, hq, hqx⟩)
      · exact Or.inr ⟨p, Or.inl rfl, h.symm⟩
      · exact Or.inl h
      · exact Or.inr ⟨q, Or.inr hq, hqx⟩
    · rintro (h | ⟨q, (rfl | hq), hqx⟩)
      · exact Or.inl (Or.inr h)
      · exact Or.inl (Or.inl hqx.symm)
      · exact Or.inr ⟨q, hq, hqx⟩

theorem insertDefine_key (m : List (String × Option String)) (k : String)
    (v : Option String) (k' : String) :
    (∃ v', (k', v') ∈ insertDefine m k v) ↔ (∃ v', (k', v') ∈ m) ∨ k' = k := by
  unfold insertDefine
  by_cases hany : ∃ p ∈ m, p.1 = k
  · have hb : (m.any fun p => decide (p.1 = k)) = true := by
      rw [List.any_eq_true]
      obtain ⟨p, hp, hpk⟩ := hany
      exact ⟨p, hp, by simpa using hpk⟩
    rw [if_pos hb]
    constructor
    · rintro ⟨v', hv'⟩
      obtain ⟨p, hp, hpe⟩ := List.mem_map.mp hv'
      by_cases hpk : p.1 = k
      · rw [if_pos hpk] at hpe
        exact Or.inr (congrArg Prod.fst hpe.symm)
      · rw [if_neg hpk] at hpe
        exact Or.inl ⟨v', hpe ▸ hp⟩
    · rintro (⟨v', hv'⟩ | rfl)
      · by_cases hpk : k' = k
        · obtain ⟨p0, hp0, hp0k⟩ := hany
          refine ⟨v, List.mem_map.mpr ⟨p0, hp0, ?_⟩⟩
          rw [if_pos hp0k, hpk]
        · refine ⟨v', List.mem_map.mpr ⟨(k', v'), hv', ?_⟩⟩
          rw [if_neg hpk]
      · obtain ⟨p0, hp0, hp0k⟩ := hany
        refine ⟨v, List.mem_map.mpr ⟨p0, hp0, ?_⟩⟩
        rw [if_pos hp0k]
  · have hb : (m.any fun p => decide (p.1 = k)) = false := by
      rw [List.any_eq_false]
      intro p hp
      simp only [decide_eq_true_eq]
      exact fun h => hany ⟨p, hp, h⟩
    rw [if_neg (by simp [hb])]
    constructor
    · rintro ⟨v', hv'⟩
      rcases List.mem_append.mp hv' with h | h
      · exact Or.inl ⟨v', h⟩
      · simp only [List.mem_singleton, Prod.mk.injEq] at h
        exact Or.inr h.1
    · rintro (⟨v', hv'⟩ | rfl)
      · exact ⟨v', List.mem_append.mpr (Or.inl hv')⟩
      · exact ⟨v, List.mem_append.mpr (Or.inr (by simp))⟩

theorem keys_foldl_insertDefine (l : List ((String × Option String) × Bool))
    (m0 : List (String × Option String)) (k' : String) :
    (∃ v', (k', v') ∈ l.foldl
        (fun m (p : (String × Option String) × Bool) => insertDefine m p.1.1 p.1.2) m0) ↔
      (∃ v', (k', v') ∈ m0) ∨ ∃ p ∈ l, p.1.1 = k' := by
  induction l generalizing m0 with
  | nil => simp
  | cons p l ih =>
    simp only [List.foldl_cons, ih, insertDefine_key, List.mem_cons]
    constructor
    · rintro ((h | h) | ⟨q, hq, hqk⟩)
      · exact Or.inl h
      · exact Or.inr ⟨p, Or.inl rfl, h.symm⟩
      · exact Or.inr ⟨q, Or.inr hq, hqk⟩
    · rintro (h | ⟨q, (rfl | hq), hqk⟩)
      · exact Or.inl (Or.inl h)
      · exact Or.inl (Or.inr hqk.symm)
      · exact Or.inr ⟨q, hq, hqk⟩

theorem collectOne_includes (acc : TgtDeps) (d : CTarget) (x : String) :
    x ∈ (collectOne acc d).includes ↔ x ∈ acc.includes ∨ (x, true) ∈ d.includes := by
  show x ∈ (d.includes.filter (fun p : String × Bool => p.2)).foldl
      (fun s (p : String × Bool) => insert p.1 s) acc.includes ↔ _
  rw [mem_foldl_insert]
  constructor
  · rintro (h | ⟨p, hp, hpx⟩)
    · exact Or.inl h
    · obtain ⟨hpd, hp2⟩ := List.mem_filter.mp hp
      have : p = (x, true) := by
        obtain ⟨p1, p2⟩ := p
        simp only at hpx
        simp only [decide_eq_true_eq] at hp2
        simp [hpx, hp2]
      exact Or.inr (this ▸ hpd)
  · rintro (h | h)
    · exact Or.inl h
    · exact Or.inr ⟨(x, true), List.mem_filter.mpr ⟨h, by simp⟩, rfl⟩

theorem collectOne_libs (acc : TgtDeps) (d : CTarget) :
    (collectOne acc d).libs = acc.libs ++ [d.name] := rfl

theorem collectOne_defines (acc : TgtDeps) (d : CTarget) (k : String) :
    (∃ v, (k, v) ∈ (collectOne acc d).defines) ↔
      (∃ v, (k, v) ∈ acc.defines) ∨ ∃ v, ((k, v), true) ∈ d.defines := by
  show (∃ v, (k, v) ∈ (d.defines.filter (fun p : (String × Option String) × Bool => p.2)).foldl
      (fun m (p : (String × Option String) × Bool) => insertDefine m p.1.1 p.1.2) acc.defines) ↔ _
  rw [keys_foldl_insertDefine]
  constructor
  · rintro (h | ⟨p, hp, hpk⟩)
    · exact Or.inl h
    · obtain ⟨hpd, hp2⟩ := List.mem_filter.mp hp
      refine Or.inr ⟨p.1.2, ?_⟩
      have : p = ((k, p.1.2), true) := by
        obtain ⟨⟨p1, pv⟩, p2⟩ := p
        simp only at hpk
        simp only [decide_eq_true_eq] at hp2
        simp [hpk, hp2]
      exact this ▸ hpd
  · rintro (h | ⟨v, hv⟩)
    · exact Or.inl h
    · exact Or.inr ⟨((k, v), true), List.mem_filter.mpr ⟨hv, by simp⟩, rfl⟩

end Ccargo

namespace Ccargo

/-- Characterization of the dependency loop of `collect` for any observable
`π` of the accumulator that `collectOne` extends by a per-target fact `Q`
(membership of a fixed include, library, or define key). -/
theorem collectDeps_generic (env : String → Option CTarget) (π : TgtDeps → Prop)
    (Q : CTarget → Prop) (hone : ∀ acc d, π (collectOne acc d) ↔ π acc ∨ Q d)
    (fuel : Nat)
    (hA : ∀ t acc, π (collectF env fuel t acc) ↔ π acc ∨ ∃ d, reachW env fuel t d ∧ Q d) :
    ∀ (deps : List (String × Bool)) (acc : TgtDeps),
      π (collectDeps env fuel deps acc) ↔
        π acc ∨ ∃ nb ∈ deps, ∃ m, env nb.1 = some m ∧
          ∃ d, (m = d ∨ reachW env fuel m d) ∧ Q d := by
  intro deps
  induction deps with
  | nil =>
    intro acc
    simp [collectDeps, collectDepsWith]
  | cons nb rest ih =>
    intro acc
    cases henv : env nb.1 with
    | none =>
      have heq : collectDeps env fuel (nb :: rest) acc = collectDeps env fuel rest acc := by
        simp [collectDeps, collectDepsWith, henv]
      rw [heq, ih acc]
      constructor
      · rintro (h | ⟨nb', hnb', hrest⟩)
        · exact Or.inl h
        · exact Or.inr ⟨nb', List.mem_cons_of_mem _ hnb', hrest⟩
      · rintro (h | ⟨nb', hnb', m, hm, hrest⟩)
        · exact Or.inl h
        · rcases List.mem_cons.mp hnb' with rfl | hmem
          · rw [henv] at hm; cases hm
          · exact Or.inr ⟨nb', hmem, m, hm, hrest⟩
    | some d0 =>
      have heq : collectDeps env fuel (nb :: rest) acc
          = collectDeps env fuel rest (collectF env fuel d0 (collectOne acc d0)) := by
        simp [collectDeps, collectDepsWith, henv]
      rw [heq, ih _, hA d0 (collectOne acc d0), hone acc d0]
      constructor
      · rintro (((h | hq) | ⟨d, hrd, hQ⟩) | ⟨nb', hnb', hrest⟩)
        · exact Or.inl h
        · exact Or.inr ⟨nb, List.mem_cons_self nb rest, d0, henv, d0, Or.inl rfl, hq⟩
        · exact Or.inr ⟨nb, List.mem_cons_self nb rest, d0, henv, d, Or.inr hrd, hQ⟩
        · exact Or.inr ⟨nb', List.mem_cons_of_mem _ hnb', hrest⟩
      · rintro (h | ⟨nb', hnb', m, hm, d, hor, hQ⟩)
        · exact Or.inl (Or.inl (Or.inl h))
        · rcases List.mem_cons.mp hnb' with rfl | hmem
          · rw [henv] at hm
            injection hm with hm'
            subst hm'
            rcases hor with rfl | hrd
            · exact Or.inl (Or.inl (Or.inr hQ))
            · exact Or.inl (Or.inr ⟨d, hrd, hQ⟩)
          · exact Or.inr ⟨nb', hmem, m, hm, d, hor, hQ⟩

/-- Characterization of `TargetDeps::collect` for any observable `π` that
`collectOne` extends by a per-target fact `Q`: after the walk, `π` holds iff
it held of the accumulator or some target reachable through dependency
edges (of either visibility) within the fuel bound satisfies `Q`. -/
theorem collect_generic (env : String → Option CTarget) (π : TgtDeps → Prop)
    (Q : CTarget → Prop) (hone : ∀ acc d, π (collectOne acc d) ↔ π acc ∨ Q d) :
    ∀ fuel : Nat, ∀ (t : CTarget) (acc : TgtDeps),
      π (collectF env fuel t acc) ↔ π acc ∨ ∃ d, reachW env fuel t d ∧ Q d := by
  intro fuel
  induction fuel with
  | zero =>
    intro t acc
    simp [collectF, reachW]
  | succ fuel ih =>
    intro t acc
    have hB := collectDeps_generic env π Q hone fuel ih t.depends acc
    have heq : collectF env (fuel + 1) t acc = collectDeps env fuel t.depends acc := rfl
    rw [heq, hB]
    refine or_congr Iff.rfl ?_
    simp only [reachW]
    constructor
    · rintro ⟨nb, hnb, m, hm, d, hor, hQ⟩
      exact ⟨d, ⟨nb, hnb, m, hm, hor⟩, hQ⟩
    · rintro ⟨d, ⟨nb, hnb, m, hm, hor⟩, hQ⟩
      exact ⟨nb, hnb, m, hm, d, hor, hQ⟩

end Ccargo

namespace Ccargo

/-- C4 (amended): `TargetDeps::collect` propagates through **all** dependency
edges — the `PublicPrivate` tag on the edge is never consulted — collecting,
for every dependency reachable through edges of either visibility: its
output library, its `Public`-tagged include directories, and its
`Public`-tagged define keys (`Private`-tagged includes/defines of a
dependency are never collected).  `fuel` bounds the recursion depth of the
embedded `collect`; on an acyclic graph any fuel at least the longest
dependency chain reproduces the Rust run. -/
theorem c4_collect_characterization (env : String → Option CTarget) (fuel : Nat)
    (t : CTarget) (acc : TgtDeps) :
    (∀ x, x ∈ (collectF env fuel t acc).includes ↔
      x ∈ acc.includes ∨ ∃ d, reachW env fuel t d ∧ (x, true) ∈ d.includes) ∧
    (∀ l, l ∈ (collectF env fuel t acc).libs ↔
      l ∈ acc.libs ∨ ∃ d, reachW env fuel t d ∧ l = d.name) ∧
    (∀ k, (∃ v, (k, v) ∈ (collectF env fuel t acc).defines) ↔
      (∃ v, (k, v) ∈ acc.defines) ∨ ∃ d, reachW env fuel t d ∧ ∃ v, ((k, v), true) ∈ d.defines) := by
  refine ⟨?_, ?_, ?_⟩
  · intro x
    exact collect_generic env (fun td => x ∈ td.includes) (fun d => (x, true) ∈ d.includes)
      (fun acc d => collectOne_includes acc d x) fuel t acc
  · intro l
    refine collect_generic env (fun td => l ∈ td.libs) (fun d => l = d.name) ?_ fuel t acc
    intro acc d
    show l ∈ (collectOne acc d).libs ↔ l ∈ acc.libs ∨ l = d.name
    rw [collectOne_libs]
    simp
  · intro k
    exact collect_generic env (fun td => ∃ v, (k, v) ∈ td.defines)
      (fun d => ∃ v, ((k, v), true) ∈ d.defines)
      (fun acc d => collectOne_defines acc d k) fuel t acc

theorem not_reachPub_from_A : ∀ (fuel : Nat) (d : CTarget), ¬ reachPub exEnv fuel exTargetA d := by
  intro fuel d
  cases fuel with
  | zero => simp [reachPub]
  | succ f =>
    rintro ⟨nb, hnb, htag, m, hm, hor⟩
    simp only [exTargetA, List.mem_singleton] at hnb
    subst hnb
    exact absurd htag (by decide)

/-- C4 counterexample: target `C` depends publicly on `A`, which depends
**privately** on `B`; `ib` is a Public include of `B` and of no target
reachable from `C` through Public edges — yet `collect` for `C` gathers
`ib`.  So includes reachable only through a Private dependency edge are
collected for reverse dependents, contrary to the claim. -/
theorem c4_private_edge_include_collected :
    ("ib", true) ∈ exTargetB.includes ∧
    "ib" ∈ (collectF exEnv 2 exTargetC emptyTD).includes ∧
    ∀ (fuel : Nat) (d : CTarget), reachPub exEnv fuel exTargetC d → ("ib", true) ∉ d.includes := by
  refine ⟨by decide, by decide, ?_⟩
  intro fuel d hreach
  cases fuel with
  | zero => simp [reachPub] at hreach
  | succ f =>
    obtain ⟨nb, hnb, htag, m, hm, hor⟩ := hreach
    simp only [exTargetC, List.mem_singleton] at hnb
    subst hnb
    simp only [exEnv, if_pos rfl] at hm
    injection hm with hm'
    subst hm'
    rcases hor with rfl | hr
    · decide
    · exact absurd hr (not_reachPub_from_A f d)

end Ccargo

namespace Ccargo

theorem stripPre_nil (s : List Char) : stripPre [] s = some s := by
  simp [stripPre, List.isPrefixOf]

theorem stripPre_cons (c : Char) (a : List Char) (d : Char) (s : List Char) :
    stripPre (c :: a) (d :: s) = if c = d then stripPre a s else none := by
  by_cases hcd : c = d
  · rw [if_pos hcd]
    subst hcd
    simp only [stripPre, List.isPrefixOf, beq_self_eq_true, Bool.true_and]
    by_cases hp : a.isPrefixOf s = true
    · rw [if_pos hp, if_pos hp]
      simp
    · rw [if_neg hp, if_neg hp]
  · rw [if_neg hcd]
    simp only [stripPre, List.isPrefixOf]
    have hb : (c == d) = false := beq_eq_false_iff_ne.mpr hcd
    simp [hb]

theorem stripPre_cons_nil (c : Char) (a : List Char) :
    stripPre (c :: a) [] = none := by
  simp [stripPre, List.isPrefixOf]

/-- Stripping a concatenated prefix is stripping each part in turn. -/
theorem stripPre_append (a b s : List Char) :
    stripPre (a ++ b) s = (stripPre a s).bind (stripPre b) := by
  induction a generalizing s with
  | nil => simp [stripPre_nil]
  | cons c a ih =>
    cases s with
    | nil =>
      rw [List.cons_append, stripPre_cons_nil, stripPre_cons_nil]
      rfl
    | cons d s' =>
      rw [List.cons_append, stripPre_cons, stripPre_cons]
      by_cases hcd : c = d
      · rw [if_pos hcd, if_pos hcd]
        exact ih s'
      · rw [if_neg hcd, if_neg hcd]
        rfl

/-- `stepRunLine` in terms of a single combined prefix strip. -/
theorem stepRunLine_eq (root : CPath) (di : MDepInfoC) (line : List Char) :
    stepRunLine root di line =
      match (stripPre "ccargo:rerun-if-changed:".toList line).bind
          (fun p => stripRoot root (absC (strToPath p) root)) with
      | some rel => di.addPkgRelative rel
      | none => di := by
  have hsplit : ("ccargo:rerun-if-changed:".toList : List Char)
      = "ccargo:".toList ++ "rerun-if-changed:".toList := by decide
  rw [hsplit, stripPre_append]
  show (match parseStepMsg line with
    | .error _ => di
    | .ok (.raw _) => di
    | .ok (.rerunIfChanged p) =>
      match stripRoot root (absC (strToPath p) root) with
      | some rel => di.addPkgRelative rel
      | none => di) = _
  unfold parseStepMsg
  cases hp : stripPre "ccargo:".toList line with
  | none => rfl
  | some rest' =>
    show (match (match stripPre "rerun-if-changed:".toList rest' with
        | some p => Except.ok (StepMsg.rerunIfChanged p)
        | none => Except.error line) with
      | Except.error _ => di
      | Except.ok (StepMsg.raw _) => di
      | Except.ok (StepMsg.rerunIfChanged p) =>
        match stripRoot root (absC (strToPath p) root) with
        | some rel => di.addPkgRelative rel
        | none => di)
      = match (stripPre "rerun-if-changed:".toList rest').bind
          (fun p => stripRoot root (absC (strToPath p) root)) with
        | some rel => di.addPkgRelative rel
        | none => di
    cases hq : stripPre "rerun-if-changed:".toList rest' with
    | none => rfl
    | some p =>
      show (match stripRoot root (absC (strToPath p) root) with
        | some rel => di.addPkgRelative rel
        | none => di)
        = match stripRoot root (absC (strToPath p) root) with
          | some rel => di.addPkgRelative rel
          | none => di
      rfl

/-- The accumulator-generalized form of the `Step::run` stdout fold: the
collected dep-info grows by exactly the resolved rerun-if-changed paths, in
line order, and never gains objects. -/
theorem stepRunDepInfo_fold (root : CPath) : ∀ (lines : List (List Char)) (di : MDepInfoC),
    (lines.foldl (stepRunLine root) di).files
      = di.files ++ (specRerunPaths root lines).map
          (fun rel => (MPathKind.packageRootRelative, rel)) ∧
    (lines.foldl (stepRunLine root) di).objects = di.objects := by
  intro lines
  induction lines with
  | nil => intro di; simp [specRerunPaths]
  | cons line rest ih =>
    intro di
    have hspec : specRerunPaths root (line :: rest)
        = (match (stripPre "ccargo:rerun-if-changed:".toList line).bind
            (fun p => stripRoot root (absC (strToPath p) root)) with
          | some rel => rel :: specRerunPaths root rest
          | none => specRerunPaths root rest) := by
      simp only [specRerunPaths, List.filterMap_cons]
      cases (stripPre "ccargo:rerun-if-changed:".toList line).bind
          (fun p => stripRoot root (absC (strToPath p) root)) with
      | none => rfl
      | some rel => rfl
    rw [List.foldl_cons, stepRunLine_eq root di line, hspec]
    cases (stripPre "ccargo:rerun-if-changed:".toList line).bind
        (fun p => stripRoot root (absC (strToPath p) root)) with
    | none => exact ih di
    | some rel =>
      obtain ⟨ihf, iho⟩ := ih (di.addPkgRelative rel)
      refine ⟨?_, ?_⟩
      · rw [ihf]
        simp [MDepInfoC.addPkgRelative]
      · rw [iho]
        simp [MDepInfoC.addPkgRelative]

/-- Stripping the root from a root-join of a relative path always succeeds
with that relative path (the `.unwrap()` in `calculate_step` cannot fail). -/
theorem stripRoot_joinC (r : CPath) (cs : List CStr) :
    stripRoot r (joinC r ⟨false, cs⟩) = some ⟨false, cs⟩ := by
  have hj : joinC r ⟨false, cs⟩ = ⟨r.isAbs, r.comps ++ cs⟩ := by
    simp [joinC]
  rw [hj]
  have hpre : r.comps.isPrefixOf (r.comps ++ cs) = true := by
    rw [List.isPrefixOf_iff_prefix]
    exact ⟨cs, rfl⟩
  simp [stripRoot, hpre, List.drop_left]

end Ccargo

namespace Ccargo

/-- C3 (amended): for every Step unit, the `local` list built by
`fingerprint::calculate_step` consists of **exactly one** entry — a
`CheckDepInfo` whose path is the step's dep-info path relative to the
target root, with `check_all = false` — and no `RerunIfChanged` entry
(`Step::run` never modifies the fingerprint; `add_rerun_if_changed` has no
caller).  The paths a step prints via `ccargo:rerun-if-changed:` lines are
instead recorded, package-root-relative and in line order, as the path pool
of the step's internal dep-info file, which the `CheckDepInfo` local
fingerprint checks on the next build against the dep-info file's own
mtime. -/
theorem c3_step_local_and_depinfo (targetRoot : CPath) (s : MStep) (root : CPath)
    (lines : List (List Char)) :
    calcStepLocal targetRoot s
      = [.checkDepInfo ⟨false, [".fingerprint".toList, s.pkgUnique, s.name ++ ".d".toList]⟩ false] ∧
    (∀ l ∈ calcStepLocal targetRoot s, l.isRerun = false) ∧
    (stepRunDepInfo root lines).files
      = (specRerunPaths root lines).map (fun rel => (MPathKind.packageRootRelative, rel)) ∧
    (stepRunDepInfo root lines).objects = [] := by
  have hlocal : calcStepLocal targetRoot s
      = [.checkDepInfo ⟨false, [".fingerprint".toList, s.pkgUnique, s.name ++ ".d".toList]⟩ false] := by
    unfold calcStepLocal stepDepInfoPath
    rw [stripRoot_joinC]
    rfl
  obtain ⟨hf, ho⟩ := stepRunDepInfo_fold root lines ⟨[], []⟩
  refine ⟨hlocal, ?_, ?_, ?_⟩
  · intro l hl
    rw [hlocal] at hl
    simp only [List.mem_singleton] at hl
    subst hl
    rfl
  · simpa using hf
  · simpa using ho

/-- C3 counterexample: the step `gen` prints a line that parses as
`rerun-if-changed:input.txt`, and that path is recorded in the step's
dep-info pool — yet the fingerprint's `local` list is the single
`CheckDepInfo` entry and contains no `RerunIfChanged` entry at all,
contradicting the claimed "plus a RerunIfChanged local-fingerprint entry". -/
theorem c3_step_local_no_rerun_entry :
    parseStepMsg "ccargo:rerun-if-changed:input.txt".toList
      = .ok (.rerunIfChanged "input.txt".toList) ∧
    (stepRunDepInfo exPkgRoot ["ccargo:rerun-if-changed:input.txt".toList]).files
      = [(.packageRootRelative, ⟨false, ["input.txt".toList]⟩)] ∧
    calcStepLocal exTgtRoot exStep
      = [.checkDepInfo ⟨false, [".fingerprint".toList, "pkg-abc".toList, "gen.d".toList]⟩ false] ∧
    (calcStepLocal exTgtRoot exStep).length = 1 ∧
    ∀ l ∈ calcStepLocal exTgtRoot exStep, l.isRerun = false := by
  refine ⟨rfl, by decide, by decide, by decide, by decide⟩

end Ccargo

namespace Ccargo

/-- With `check_all = true` the paths loop never returns early: it falls
through with a grown `updated` set containing every stale listed path. -/
theorem cdiPathsLoop_true (mt : Bytes → Option Nat) (dip : Bytes) (dm : Nat) :
    ∀ (ps : List Bytes) (upd : Finset Bytes) (items : List MStale),
      ∃ upd' items', cdiPathsLoop mt dip dm true ps upd items = .through upd' items' ∧
        upd ⊆ upd' ∧ ∀ p ∈ ps, (staleItemM mt dip dm p).isSome → p ∈ upd' := by
  intro ps
  induction ps with
  | nil =>
    intro upd items
    exact ⟨upd, items, rfl, Finset.Subset.refl upd, by simp⟩
  | cons p ps ih =>
    intro upd items
    cases hs : staleItemM mt dip dm p with
    | none =>
      obtain ⟨upd', items', heq, hsub, hstale⟩ := ih upd items
      refine ⟨upd', items', ?_, hsub, ?_⟩
      · simpa [cdiPathsLoop, hs] using heq
      · intro q hq hqs
        rcases List.mem_cons.mp hq with rfl | hq'
        · rw [hs] at hqs; cases hqs
        · exact hstale q hq' hqs
    | some s =>
      obtain ⟨upd', items', heq, hsub, hstale⟩ := ih (insert p upd) (items ++ [s])
      refine ⟨upd', items', ?_, ?_, ?_⟩
      · simpa [cdiPathsLoop, hs] using heq
      · exact fun x hx => hsub (Finset.mem_insert_of_mem hx)
      · intro q hq hqs
        rcases List.mem_cons.mp hq with rfl | hq'
        · exact hsub (Finset.mem_insert_self q upd)
        · exact hstale q hq' hqs

/-- If the input scan returns cleanly with no stale item, every input index
resolves and none of the resolved paths is stale. -/
theorem cdiFirstStaleInput_none (mt : Bytes → Option Nat) (dip : Bytes) (dm : Nat)
    (paths : List Bytes) :
    ∀ (inputs : List Nat), cdiFirstStaleInput mt dip dm paths inputs = .ok none →
      ∀ i ∈ inputs, ∃ ip, paths[i]? = some ip ∧ staleItemM mt dip dm ip = none := by
  intro inputs
  induction inputs with
  | nil => intro _ i hi; cases hi
  | cons i rest ih =>
    intro heq j hj
    cases hg : paths[i]? with
    | none => simp [cdiFirstStaleInput, hg] at heq
    | some ip =>
      cases hs : staleItemM mt dip dm ip with
      | some s => simp [cdiFirstStaleInput, hg, hs] at heq
      | none =>
        have heq' : cdiFirstStaleInput mt dip dm paths rest = .ok none := by
          simpa [cdiFirstStaleInput, hg, hs] using heq
        rcases List.mem_cons.mp hj with rfl | hj'
        · exact ⟨ip, hg, hs⟩
        · exact ih heq' j hj'

/-- If the input scan returns a stale item, it is the first stale entry
among the resolved inputs. -/
theorem cdiFirstStaleInput_some (mt : Bytes → Option Nat) (dip : Bytes) (dm : Nat)
    (paths : List Bytes) :
    ∀ (inputs : List Nat) (s : MStale),
      cdiFirstStaleInput mt dip dm paths inputs = .ok (some s) →
      firstStale mt dip dm (inputs.filterMap (fun i => paths[i]?)) = some s := by
  intro inputs
  induction inputs with
  | nil => intro s h; cases h
  | cons i rest ih =>
    intro s heq
    cases hg : paths[i]? with
    | none => simp [cdiFirstStaleInput, hg] at heq
    | some ip =>
      cases hs : staleItemM mt dip dm ip with
      | some s' =>
        have h2 : PRes.ok (some s') = PRes.ok (some s) := by
          simpa [cdiFirstStaleInput, hg, hs] using heq
        have hss : s' = s := by
          injection h2 with h3
          injection h3
        subst hss
        simp [List.filterMap_cons, hg, firstStale, hs]
      | none =>
        have heq' : cdiFirstStaleInput mt dip dm paths rest = .ok (some s) := by
          simpa [cdiFirstStaleInput, hg, hs] using heq
        simp only [List.filterMap_cons, hg, firstStale, hs]
        exact ih s heq'

end Ccargo

namespace Ccargo

/-- With `check_all = true` the object loop never returns early and, when it
completes, `updated` has grown to contain the owning source of every object
with a stale (resolved) input. -/
theorem cdiObjsLoop_true (mt : Bytes → Option Nat) (dip : Bytes) (dm : Nat)
    (paths : List Bytes) :
    ∀ (objs : List MDepObject) (upd : Finset Bytes) (items : List MStale) (lr : CdiLoop),
      cdiObjsLoop mt dip dm true paths objs upd items = .ok lr →
      ∃ upd' items', lr = .through upd' items' ∧ upd ⊆ upd' ∧
        ∀ obj ∈ objs, ∀ src, paths[obj.file]? = some src →
          (∃ i ∈ obj.inputs, ∃ ip, paths[i]? = some ip ∧
            (staleItemM mt dip dm ip).isSome) → src ∈ upd' := by
  intro objs
  induction objs with
  | nil =>
    intro upd items lr heq
    have h1 : PRes.ok (CdiLoop.through upd items) = PRes.ok lr := heq
    have hlr : lr = CdiLoop.through upd items := by
      injection h1 with h2
      exact h2.symm
    exact ⟨upd, items, hlr, Finset.Subset.refl upd, fun obj hobj => absurd hobj (by simp)⟩
  | cons obj rest ih =>
    intro upd items lr heq
    cases hsrc : paths[obj.file]? with
    | none => simp [cdiObjsLoop, hsrc] at heq
    | some src =>
      cases hfi : cdiFirstStaleInput mt dip dm paths obj.inputs with
      | panicked => simp [cdiObjsLoop, hsrc, hfi] at heq
      | fail => simp [cdiObjsLoop, hsrc, hfi] at heq
      | nofuel => simp [cdiObjsLoop, hsrc, hfi] at heq
      | ok o =>
        cases o with
        | none =>
          have heq' : cdiObjsLoop mt dip dm true paths rest upd items = .ok lr := by
            simpa [cdiObjsLoop, hsrc, hfi] using heq
          obtain ⟨upd', items', hlr, hsub, hmem⟩ := ih upd items lr heq'
          refine ⟨upd', items', hlr, hsub, ?_⟩
          intro o ho src' hsrc' hstale
          rcases List.mem_cons.mp ho with rfl | ho'
          · obtain ⟨i, hi, ip, hip, hips⟩ := hstale
            obtain ⟨ip', hip', hip's⟩ := cdiFirstStaleInput_none mt dip dm paths o.inputs hfi i hi
            rw [hip] at hip'
            injection hip' with h
            subst h
            rw [hip's] at hips
            cases hips
          · exact hmem o ho' src' hsrc' hstale
        | some s =>
          have heq' : cdiObjsLoop mt dip dm true paths rest (insert src upd) (items ++ [s])
              = .ok lr := by
            simpa [cdiObjsLoop, hsrc, hfi] using heq
          obtain ⟨upd', items', hlr, hsub, hmem⟩ := ih (insert src upd) (items ++ [s]) lr heq'
          refine ⟨upd', items', hlr, fun x hx => hsub (Finset.mem_insert_of_mem hx), ?_⟩
          intro o ho src' hsrc' hstale
          rcases List.mem_cons.mp ho with rfl | ho'
          · rw [hsrc] at hsrc'
            injection hsrc' with h
            subst h
            exact hsub (Finset.mem_insert_self src upd)
          · exact hmem o ho' src' hsrc' hstale

/-- With `check_all = false` the paths loop either returns the first stale
listed path early, or falls through unchanged when none is stale. -/
theorem cdiPathsLoop_false (mt : Bytes → Option Nat) (dip : Bytes) (dm : Nat) :
    ∀ (ps : List Bytes) (upd : Finset Bytes) (items : List MStale),
      (∀ s u, cdiPathsLoop mt dip dm false ps upd items = .early s u →
        firstStale mt dip dm ps = some s) ∧
      (∀ u it, cdiPathsLoop mt dip dm false ps upd items = .through u it →
        firstStale mt dip dm ps = none ∧ u = upd ∧ it = items) := by
  intro ps
  induction ps with
  | nil =>
    intro upd items
    constructor
    · intro s u h; cases h
    · intro u it h
      have h1 : CdiLoop.through upd items = CdiLoop.through u it := h ▸ rfl
      refine ⟨rfl, ?_, ?_⟩ <;> injection h1 with h2 h3
      · exact h2.symm
      · exact h3.symm
  | cons p ps ih =>
    intro upd items
    cases hs : staleItemM mt dip dm p with
    | none =>
      obtain ⟨ihe, iht⟩ := ih upd items
      constructor
      · intro s u h
        have h' : cdiPathsLoop mt dip dm false ps upd items = .early s u := by
          simpa [cdiPathsLoop, hs] using h
        simpa [firstStale, hs] using ihe s u h'
      · intro u it h
        have h' : cdiPathsLoop mt dip dm false ps upd items = .through u it := by
          simpa [cdiPathsLoop, hs] using h
        have := iht u it h'
        simpa [firstStale, hs] using this
    | some s0 =>
      constructor
      · intro s u h
        have h1 : CdiLoop.early s0 (insert p upd) = CdiLoop.early s u := by
          simpa [cdiPathsLoop, hs] using h
        have hs0 : s0 = s := by injection h1
        subst hs0
        simp [firstStale, hs]
      · intro u it h
        have h1 : CdiLoop.early s0 (insert p upd) = CdiLoop.through u it := by
          simpa [cdiPathsLoop, hs] using h
        cases h1

/-- With `check_all = false` the object loop reports the first object whose
inputs contain a stale path, or falls through unchanged. -/
theorem cdiObjsLoop_false (mt : Bytes → Option Nat) (dip : Bytes) (dm : Nat)
    (paths : List Bytes) :
    ∀ (objs : List MDepObject) (upd : Finset Bytes) (items : List MStale),
      (∀ s u, cdiObjsLoop mt dip dm false paths objs upd items = .ok (.early s u) →
        (objs.filterMap (fun obj =>
          firstStale mt dip dm (obj.inputs.filterMap (fun i => paths[i]?)))).head? = some s) ∧
      (∀ u it, cdiObjsLoop mt dip dm false paths objs upd items = .ok (.through u it) →
        (objs.filterMap (fun obj =>
          firstStale mt dip dm (obj.inputs.filterMap (fun i => paths[i]?)))).head? = none ∧
        u = upd ∧ it = items) := by
  intro objs
  induction objs with
  | nil =>
    intro upd items
    constructor
    · intro s u h
      have h1 : PRes.ok (CdiLoop.through upd items) = PRes.ok (CdiLoop.early s u) := h ▸ rfl
      injection h1 with h2
      cases h2
    · intro u it h
      have h1 : PRes.ok (CdiLoop.through upd items) = PRes.ok (CdiLoop.through u it) := h ▸ rfl
      injection h1 with h2
      refine ⟨rfl, ?_, ?_⟩ <;> injection h2 with h3 h4
      · exact h3.symm
      · exact h4.symm
  | cons obj rest ih =>
    intro upd items
    cases hsrc : paths[obj.file]? with
    | none =>
      constructor
      · intro s u h; simp [cdiObjsLoop, hsrc] at h
      · intro u it h; simp [cdiObjsLoop, hsrc] at h
    | some src =>
      cases hfi : cdiFirstStaleInput mt dip dm paths obj.inputs with
      | panicked =>
        constructor
        · intro s u h; simp [cdiObjsLoop, hsrc, hfi] at h
        · intro u it h; simp [cdiObjsLoop, hsrc, hfi] at h
      | fail =>
        constructor
        · intro s u h; simp [cdiObjsLoop, hsrc, hfi] at h
        · intro u it h; simp [cdiObjsLoop, hsrc, hfi] at h
      | nofuel =>
        constructor
        · intro s u h; simp [cdiObjsLoop, hsrc, hfi] at h
        · intro u it h; simp [cdiObjsLoop, hsrc, hfi] at h
      | ok o =>
        cases o with
        | none =>
          have hnone := cdiFirstStaleInput_none mt dip dm paths obj.inputs hfi
          have hfirst : firstStale mt dip dm (obj.inputs.filterMap (fun i => paths[i]?)) = none := by
            have : ∀ inputs : List Nat, (∀ i ∈ inputs, ∃ ip, paths[i]? = some ip ∧
                staleItemM mt dip dm ip = none) →
                firstStale mt dip dm (inputs.filterMap (fun i => paths[i]?)) = none := by
              intro inputs
              induction inputs with
              | nil => intro _; rfl
              | cons i is ihi =>
                intro hall
                obtain ⟨ip, hip, hips⟩ := hall i (List.mem_cons_self i is)
                simp only [List.filterMap_cons, hip, firstStale, hips]
                exact ihi (fun j hj => hall j (List.mem_cons_of_mem i hj))
            exact this obj.inputs hnone
          obtain ⟨ihe, iht⟩ := ih upd items
          constructor
          · intro s u h
            have h' : cdiObjsLoop mt dip dm false paths rest upd items = .ok (.early s u) := by
              simpa [cdiObjsLoop, hsrc, hfi] using h
            simpa [List.filterMap_cons, hfirst] using ihe s u h'
          · intro u it h
            have h' : cdiObjsLoop mt dip dm false paths rest upd items = .ok (.through u it) := by
              simpa [cdiObjsLoop, hsrc, hfi] using h
            have := iht u it h'
            simpa [List.filterMap_cons, hfirst] using this
        | some s0 =>
          have hfirst := cdiFirstStaleInput_some mt dip dm paths obj.inputs s0 hfi
          constructor
          · intro s u h
            have h1 : PRes.ok (CdiLoop.early s0 (insert src upd)) = PRes.ok (CdiLoop.early s u) := by
              simpa [cdiObjsLoop, hsrc, hfi] using h
            injection h1 with h2
            have hs0 : s0 = s := by injection h2
            subst hs0
            simp [List.filterMap_cons, hfirst]
          · intro u it h
            have h1 : PRes.ok (CdiLoop.early s0 (insert src upd))
                = PRes.ok (CdiLoop.through u it) := by
              simpa [cdiObjsLoop, hsrc, hfi] using h
            injection h1 with h2
            cases h2

end Ccargo

namespace Ccargo

/-- C7 (amended): a `CheckDepInfo` local fingerprint treats a listed input
path as stale exactly when it has no mtime (then as a `MissingFile`) or its
mtime is greater than or equal to the dep-info file's own mtime; a missing
dep-info file reports `MissingFile` (but a present, malformed dep-info file
panics during deserialization instead of reporting `MissingFile` — see the
counterexample).  With `check_all = true`, every stale listed path and, for
every per-object entry whose header inputs contain a stale path, the owning
source path are inserted into the updated set (which is
`FingerprintState.files`); with `check_all = false`, evaluation
short-circuits and returns the first stale item found (listed paths in pool
order, then per-object header inputs). -/
theorem c7_check_dep_info (mt : Bytes → Option Nat) (disk : Bytes → Option Bytes)
    (pkgRoot targetRoot rel : Bytes) (updated : Finset Bytes) :
    (∀ refM p, (staleItemM mt (joinB targetRoot rel) refM p).isSome
       ↔ (mt p = none ∨ ∃ m, mt p = some m ∧ refM ≤ m)) ∧
    (∀ refM p, mt p = none →
       staleItemM mt (joinB targetRoot rel) refM p = some (.missingFile p)) ∧
    (∀ ca, disk (joinB targetRoot rel) = none →
       findStaleCDI mt disk pkgRoot targetRoot rel ca updated
         = .ok (some (.missingFile (joinB targetRoot rel)), updated)) ∧
    (∀ data info restBytes dm res upd,
       disk (joinB targetRoot rel) = some data →
       depInfoDeser data = .ok (info, restBytes) →
       mt (joinB targetRoot rel) = some dm →
       findStaleCDI mt disk pkgRoot targetRoot rel true updated = .ok (res, upd) →
       updated ⊆ upd ∧
       (∀ p ∈ info.files.map (fun kp => kindPath kp.1 kp.2 pkgRoot targetRoot),
          (staleItemM mt (joinB targetRoot rel) dm p).isSome → p ∈ upd) ∧
       (∀ obj ∈ info.objects, ∀ src,
          (info.files.map (fun kp => kindPath kp.1 kp.2 pkgRoot targetRoot))[obj.file]?
            = some src →
          (∃ i ∈ obj.inputs, ∃ ip,
            (info.files.map (fun kp => kindPath kp.1 kp.2 pkgRoot targetRoot))[i]? = some ip ∧
            (staleItemM mt (joinB targetRoot rel) dm ip).isSome) →
          src ∈ upd)) ∧
    (∀ data info restBytes dm res upd,
       disk (joinB targetRoot rel) = some data →
       depInfoDeser data = .ok (info, restBytes) →
       mt (joinB targetRoot rel) = some dm →
       findStaleCDI mt disk pkgRoot targetRoot rel false updated = .ok (res, upd) →
       res = cdiSpecFirst mt (joinB targetRoot rel) dm
         (info.files.map (fun kp => kindPath kp.1 kp.2 pkgRoot targetRoot)) info.objects) := by
  refine ⟨?_, ?_, ?_, ?_, ?_⟩
  · intro refM p
    cases hmt : mt p with
    | none => simp [staleItemM, hmt]
    | some m =>
      by_cases hle : refM ≤ m
      · simp [staleItemM, hmt, hle]
      · simp only [staleItemM, hmt, if_neg hle]
        constructor
        · intro h; cases h
        · rintro (h | ⟨m', hm', hle'⟩)
          · cases h
          · injection hm' with h
            subst h
            exact absurd hle' hle
  · intro refM p hmt
    simp [staleItemM, hmt]
  · intro ca hd
    simp [findStaleCDI, hd]
  · intro data info restBytes dm res upd hd hparse hm hres
    simp only [findStaleCDI, hd, hparse, hm] at hres
    obtain ⟨upd1, items1, hploop, hsub1, hstale1⟩ :=
      cdiPathsLoop_true mt (joinB targetRoot rel) dm
        (info.files.map (fun kp => kindPath kp.1 kp.2 pkgRoot targetRoot)) updated []
    simp only [hploop] at hres
    cases holoop : cdiObjsLoop mt (joinB targetRoot rel) dm true
        (info.files.map (fun kp => kindPath kp.1 kp.2 pkgRoot targetRoot))
        info.objects upd1 items1 with
    | panicked => simp only [holoop] at hres; exact PRes.noConfusion hres
    | fail => simp only [holoop] at hres; exact PRes.noConfusion hres
    | nofuel => simp only [holoop] at hres; exact PRes.noConfusion hres
    | ok lr =>
      obtain ⟨upd2, items2, hlr, hsub2, hmem2⟩ :=
        cdiObjsLoop_true mt (joinB targetRoot rel) dm _ info.objects upd1 items1 lr holoop
      subst hlr
      simp only [holoop] at hres
      have hupd : upd = upd2 := by
        have h1 : PRes.ok ((cdiCollapse items2 : Option MStale), upd2) = PRes.ok (res, upd) := hres
        injection h1 with h2
        exact (congrArg Prod.snd h2).symm
      subst hupd
      refine ⟨fun x hx => hsub2 (hsub1 hx), ?_, ?_⟩
      · intro p hp hps
        exact hsub2 (hstale1 p hp hps)
      · intro obj hobj src hsrc hstale
        exact hmem2 obj hobj src hsrc hstale
  · intro data info restBytes dm res upd hd hparse hm hres
    simp only [findStaleCDI, hd, hparse, hm] at hres
    obtain ⟨hpe, hpt⟩ := cdiPathsLoop_false mt (joinB targetRoot rel) dm
      (info.files.map (fun kp => kindPath kp.1 kp.2 pkgRoot targetRoot)) updated []
    cases hploop : cdiPathsLoop mt (joinB targetRoot rel) dm false
        (info.files.map (fun kp => kindPath kp.1 kp.2 pkgRoot targetRoot)) updated [] with
    | early s u =>
      simp only [hploop] at hres
      have hfs := hpe s u hploop
      have hr : res = some s := by
        have h1 : PRes.ok ((some s : Option MStale), u) = PRes.ok (res, upd) := hres
        injection h1 with h2
        exact (congrArg Prod.fst h2).symm
      rw [hr]
      simp [cdiSpecFirst, hfs]
    | through u it =>
      simp only [hploop] at hres
      obtain ⟨hfs, hu, hit⟩ := hpt u it hploop
      subst hu
      subst hit
      obtain ⟨hoe, hot⟩ := cdiObjsLoop_false mt (joinB targetRoot rel) dm
        (info.files.map (fun kp => kindPath kp.1 kp.2 pkgRoot targetRoot))
        info.objects u []
      cases holoop : cdiObjsLoop mt (joinB targetRoot rel) dm false
          (info.files.map (fun kp => kindPath kp.1 kp.2 pkgRoot targetRoot))
          info.objects u [] with
      | panicked => simp only [holoop] at hres; exact PRes.noConfusion hres
      | fail => simp only [holoop] at hres; exact PRes.noConfusion hres
      | nofuel => simp only [holoop] at hres; exact PRes.noConfusion hres
      | ok lr =>
        simp only [holoop] at hres
        cases lr with
        | early s u' =>
          have hof := hoe s u' holoop
          have hr : res = some s := by
            have h1 : PRes.ok ((some s : Option MStale), u') = PRes.ok (res, upd) := hres
            injection h1 with h2
            exact (congrArg Prod.fst h2).symm
          rw [hr]
          simp only [cdiSpecFirst, hfs]
          cases hcl : (info.objects.filterMap (fun obj =>
            firstStale mt (joinB targetRoot rel) dm
              (obj.inputs.filterMap (fun i =>
                (info.files.map (fun kp => kindPath kp.1 kp.2 pkgRoot targetRoot))[i]?)))) with
          | nil => rw [hcl] at hof; simp at hof
          | cons a l =>
            rw [hcl] at hof
            simp only [List.head?] at hof
            injection hof with h3
            rw [h3]
        | through u' it' =>
          obtain ⟨hof, hu', hit'⟩ := hot u' it' holoop
          subst hit'
          have hr : res = cdiCollapse [] := by
            have h1 : PRes.ok ((cdiCollapse [] : Option MStale), u') = PRes.ok (res, upd) := hres
            injection h1 with h2
            exact (congrArg Prod.fst h2).symm
          rw [hr]
          simp only [cdiSpecFirst, hfs]
          cases hcl : (info.objects.filterMap (fun obj =>
            firstStale mt (joinB targetRoot rel) dm
              (obj.inputs.filterMap (fun i =>
                (info.files.map (fun kp => kindPath kp.1 kp.2 pkgRoot targetRoot))[i]?)))) with
          | nil => rfl
          | cons a l => rw [hcl] at hof; simp at hof

end Ccargo

namespace Ccargo

/-- C7 counterexample: the claim says an unparseable dep-info file is treated
as `MissingFile`, but with the dep-info file present and empty (a malformed
serialization) `find_stale_item` panics inside `DepInfo::deserialize`
(`BinaryReader::read_u32` slices out of bounds) instead of reporting any
stale item. -/
theorem c7_malformed_dep_info_panics :
    findStaleCDI exMt exDiskEmpty exPkgRootB exTgtRootB [100] true ∅ = .panicked ∧
    findStaleCDI exMt exDiskEmpty exPkgRootB exTgtRootB [100] true ∅
      ≠ .ok (some (.missingFile (joinB exTgtRootB [100])), ∅) := by
  refine ⟨rfl, fun h => ?_⟩
  have h2 : (PRes.panicked : PRes (Option MStale × Finset Bytes))
      = PRes.ok (some (.missingFile (joinB exTgtRootB [100])), ∅) := h
  exact PRes.noConfusion h2

/-- Witness for C7: on the concrete dep-info with source `/p/s` (fresh,
mtime 5) and header `/p/h` (stale, mtime 10 = dep-info mtime) and one object
whose header input is the stale `/p/h`, `check_all = true` puts both the
stale header and the owning source `/p/s` into the updated set. -/
theorem c7_check_dep_info_witness :
    ([47,112,47,104] : Bytes)
      ∈ insert ([47,112,47,115] : Bytes)
          (insert ([47,112,47,104] : Bytes) (∅ : Finset Bytes)) ∧
    ([47,112,47,115] : Bytes)
      ∈ insert ([47,112,47,115] : Bytes)
          (insert ([47,112,47,104] : Bytes) (∅ : Finset Bytes)) := by
  have T := c7_check_dep_info exMt exDisk exPkgRootB exTgtRootB [100] ∅
  have h4 := T.2.2.2.1 exDepBytes exDepInfo [] 10
    (some (.list [.changedFile [47,116,47,100] 10 [47,112,47,104] 10,
                  .changedFile [47,116,47,100] 10 [47,112,47,104] 10]))
    (insert [47,112,47,115] (insert [47,112,47,104] ∅))
    rfl rfl rfl rfl
  refine ⟨h4.2.1 [47,112,47,104] (by decide) rfl, ?_⟩
  refine h4.2.2 ⟨0, [1]⟩ (by simp [exDepInfo]) [47,112,47,115] rfl ?_
  exact ⟨1, by simp, [47,112,47,104], rfl, rfl⟩

end Ccargo

namespace Ccargo

/-- `read_u8` only advances the slice. -/
theorem readU8_mono : RdMono readU8 := by
  intro bs a r hc
  cases bs with
  | nil => exact PRes.noConfusion hc
  | cons b rest =>
    have h1 : PRes.ok ((b, rest) : Nat × Bytes) = .ok (a, r) := hc
    injection h1 with h2
    injection h2 with h3 h4
    subst h4
    exact Nat.le_succ _

/-- `read_u8` never exhausts fuel (it has no recursion). -/
theorem readU8_nonf : ∀ bs, readU8 bs ≠ .nofuel := by
  intro bs hc
  cases bs with
  | nil => exact PRes.noConfusion hc
  | cons b rest => exact PRes.noConfusion hc

/-- `read_u32` only advances the slice. -/
theorem readU32_mono : RdMono readU32 := by
  intro bs a r hc
  unfold readU32 at hc
  split at hc
  · exact PRes.noConfusion hc
  · have h1 : PRes.ok ((fromLE (bs.take 4), bs.drop 4)) = .ok (a, r) := hc
    injection h1 with h2
    injection h2 with h3 h4
    subst h4
    simp [List.length_drop]

/-- `read_u32` never exhausts fuel. -/
theorem readU32_nonf : ∀ bs, readU32 bs ≠ .nofuel := by
  intro bs hc
  unfold readU32 at hc
  split at hc
  · exact PRes.noConfusion hc
  · exact PRes.noConfusion hc

/-- `read_u64` only advances the slice. -/
theorem readU64_mono : RdMono readU64 := by
  intro bs a r hc
  unfold readU64 at hc
  split at hc
  · exact PRes.noConfusion hc
  · have h1 : PRes.ok ((fromLE (bs.take 8), bs.drop 8)) = .ok (a, r) := hc
    injection h1 with h2
    injection h2 with h3 h4
    subst h4
    simp [List.length_drop]

/-- `read_u64` strictly advances the slice (by exactly 8 bytes). -/
theorem readU64_strict : ∀ bs a r, readU64 bs = .ok (a, r) → r.length < bs.length := by
  intro bs a r hc
  unfold readU64 at hc
  split at hc
  · exact PRes.noConfusion hc
  · rename_i hlen
    have h1 : PRes.ok ((fromLE (bs.take 8), bs.drop 8)) = .ok (a, r) := hc
    injection h1 with h2
    injection h2 with h3 h4
    subst h4
    simp only [List.length_drop]
    omega

/-- `read_u64` never exhausts fuel. -/
theorem readU64_nonf : ∀ bs, readU64 bs ≠ .nofuel := by
  intro bs hc
  unfold readU64 at hc
  split at hc
  · exact PRes.noConfusion hc
  · exact PRes.noConfusion hc

/-- `Rd.pure` leaves the slice unchanged. -/
theorem Rd.pure_mono {α : Type} (a : α) : RdMono (Rd.pure a) := by
  intro bs b r hc
  have h1 : PRes.ok ((a, bs)) = .ok (b, r) := hc
  injection h1 with h2
  injection h2 with h3 h4
  subst h4
  exact Nat.le_refl _

/-- Binding slice-advancing readers advances the slice. -/
theorem Rd.bind_mono {α β : Type} {m : Rd α} {f : α → Rd β}
    (hm : RdMono m) (hf : ∀ a, RdMono (f a)) : RdMono (Rd.bind m f) := by
  intro bs b r hc
  unfold Rd.bind at hc
  cases hm0 : m bs with
  | ok p =>
    obtain ⟨a, r1⟩ := p
    rw [hm0] at hc
    have hc2 : f a r1 = PRes.ok (b, r) := hc
    exact le_trans (hf a r1 b r hc2) (hm bs a r1 hm0)
  | fail => rw [hm0] at hc; exact PRes.noConfusion hc
  | panicked => rw [hm0] at hc; exact PRes.noConfusion hc
  | nofuel => rw [hm0] at hc; exact PRes.noConfusion hc

/-- Binding fuel-safe readers is fuel-safe. -/
theorem Rd.bind_nonf {α β : Type} {m : Rd α} {f : α → Rd β} {k : Nat}
    (hm : RdNoNF k m) (hmono : RdMono m) (hf : ∀ a, RdNoNF k (f a)) :
    RdNoNF k (Rd.bind m f) := by
  intro bs hlt hc
  unfold Rd.bind at hc
  cases hm0 : m bs with
  | ok p =>
    obtain ⟨a, r1⟩ := p
    rw [hm0] at hc
    have hc2 : f a r1 = PRes.nofuel := hc
    exact hf a r1 (lt_of_le_of_lt (hmono bs a r1 hm0) hlt) hc2
  | fail => rw [hm0] at hc; exact PRes.noConfusion hc
  | panicked => rw [hm0] at hc; exact PRes.noConfusion hc
  | nofuel => exact hm bs hlt hm0

/-- Binding a strictly-advancing fuel-free reader in front of a reader that
is fuel-safe below `k` gives a reader fuel-safe below `k + 1`. -/
theorem Rd.bind_nonf_strict {α β : Type} {m : Rd α} {f : α → Rd β} {k : Nat}
    (hm : ∀ bs, m bs ≠ .nofuel)
    (hstrict : ∀ bs a r, m bs = .ok (a, r) → r.length < bs.length)
    (hf : ∀ a, RdNoNF k (f a)) :
    RdNoNF (k + 1) (Rd.bind m f) := by
  intro bs hlt hc
  unfold Rd.bind at hc
  cases hm0 : m bs with
  | ok p =>
    obtain ⟨a, r1⟩ := p
    rw [hm0] at hc
    have hc2 : f a r1 = PRes.nofuel := hc
    have hr1 : r1.length < k := by
      have := hstrict bs a r1 hm0
      omega
    exact hf a r1 hr1 hc2
  | fail => rw [hm0] at hc; exact PRes.noConfusion hc
  | panicked => rw [hm0] at hc; exact PRes.noConfusion hc
  | nofuel => exact hm bs hm0

/-- `read_bytes` only advances the slice. -/
theorem readBytes_mono : RdMono readBytes := by
  unfold readBytes
  apply Rd.bind_mono readU64_mono
  intro n bs a r hc
  have hc2 : (if bs.length < n then PRes.panicked
      else PRes.ok (bs.take n, bs.drop n)) = PRes.ok (a, r) := hc
  split at hc2
  · exact PRes.noConfusion hc2
  · injection hc2 with h2
    injection h2 with h3 h4
    subst h4
    simp [List.length_drop]

/-- `read_bytes` never exhausts fuel. -/
theorem readBytes_nonf (k : Nat) : RdNoNF k readBytes := by
  unfold readBytes
  apply Rd.bind_nonf (fun bs _ => readU64_nonf bs) readU64_mono
  intro n bs _ hc
  have hc2 : (if bs.length < n then PRes.panicked
      else PRes.ok (bs.take n, bs.drop n)) = PRes.nofuel := hc
  split at hc2
  · exact PRes.noConfusion hc2
  · exact PRes.noConfusion hc2

/-- `read_path` only advances the slice. -/
theorem readPath_mono : RdMono readPath := readBytes_mono

/-- `read_path` never exhausts fuel. -/
theorem readPath_nonf (k : Nat) : RdNoNF k readPath := readBytes_nonf k

/-- Iterating a slice-advancing reader advances the slice. -/
theorem readN_mono {α : Type} {m : Rd α} (hm : RdMono m) :
    ∀ n, RdMono (readN n m) := by
  intro n
  induction n with
  | zero => exact Rd.pure_mono []
  | succ n ih =>
    exact Rd.bind_mono hm (fun a => Rd.bind_mono ih (fun rest => Rd.pure_mono _))

/-- Iterating a fuel-safe reader is fuel-safe. -/
theorem readN_nonf {α : Type} {m : Rd α} {k : Nat} (hm : RdNoNF k m)
    (hmono : RdMono m) : ∀ n, RdNoNF k (readN n m) := by
  intro n
  induction n with
  | zero => intro bs _ hc; exact PRes.noConfusion hc
  | succ n ih =>
    exact Rd.bind_nonf hm hmono (fun a =>
      Rd.bind_nonf ih (readN_mono hmono n) (fun rest bs _ hc => PRes.noConfusion hc))

/-- `LocalFingerprint::deserialize` only advances the slice. -/
theorem readLocalFP_mono : RdMono readLocalFP := by
  unfold readLocalFP
  apply Rd.bind_mono readU8_mono
  intro kind
  split_ifs with h0 h1
  · exact Rd.bind_mono readU8_mono (fun ca =>
      Rd.bind_mono readPath_mono (fun p => Rd.pure_mono _))
  · exact Rd.bind_mono readPath_mono (fun output =>
      Rd.bind_mono readU32_mono (fun n =>
        Rd.bind_mono (readN_mono readPath_mono n) (fun ps => Rd.pure_mono _)))
  · intro bs a r hc
    exact PRes.noConfusion hc

/-- `LocalFingerprint::deserialize` never exhausts fuel. -/
theorem readLocalFP_nonf (k : Nat) : RdNoNF k readLocalFP := by
  unfold readLocalFP
  apply Rd.bind_nonf (fun bs _ => readU8_nonf bs) readU8_mono
  intro kind
  split_ifs with h0 h1
  · exact Rd.bind_nonf (fun bs _ => readU8_nonf bs) readU8_mono (fun ca =>
      Rd.bind_nonf (readPath_nonf k) readPath_mono (fun p bs _ hc => PRes.noConfusion hc))
  · exact Rd.bind_nonf (readPath_nonf k) readPath_mono (fun output =>
      Rd.bind_nonf (fun bs _ => readU32_nonf bs) readU32_mono (fun n =>
        Rd.bind_nonf (readN_nonf (readPath_nonf k) readPath_mono n)
          (readN_mono readPath_mono n)
          (fun ps bs _ hc => PRes.noConfusion hc)))
  · intro bs _ hc
    exact PRes.noConfusion hc

/-- `DepFingerprint::deserialize` only advances the slice whenever the nested
fingerprint reader does. -/
theorem readDepFPWith_mono {rf : Rd MFingerprint} (hrf : RdMono rf) :
    RdMono (readDepFPWith rf) := by
  unfold readDepFPWith
  apply Rd.bind_mono readU64_mono
  intro pkgId
  apply Rd.bind_mono readBytes_mono
  intro nameBytes
  cases decodeTargetName nameBytes with
  | none => intro bs a r hc; exact PRes.noConfusion hc
  | some nm => exact Rd.bind_mono hrf (fun fp => Rd.pure_mono _)

/-- `DepFingerprint::deserialize` consumes at least the 8-byte package-id
hash before reaching the nested fingerprint, so it tolerates one byte more
of input than the nested reader. -/
theorem readDepFPWith_nonf {rf : Rd MFingerprint} {k : Nat} (hmono : RdMono rf)
    (hrf : RdNoNF k rf) : RdNoNF (k + 1) (readDepFPWith rf) := by
  unfold readDepFPWith
  apply Rd.bind_nonf_strict readU64_nonf readU64_strict
  intro pkgId
  apply Rd.bind_nonf (readBytes_nonf k) readBytes_mono
  intro nameBytes
  cases decodeTargetName nameBytes with
  | none => intro bs _ hc; exact PRes.noConfusion hc
  | some nm =>
    exact Rd.bind_nonf hrf hmono (fun fp bs _ hc => PRes.noConfusion hc)

/-- `Fingerprint::deserialize` at nesting budget `fuel` only advances the
slice, and cannot exhaust the budget on inputs shorter than `fuel` (each
nesting level consumes at least one byte of input, so a budget of one more
than the input length always suffices). -/
theorem readFingerprint_safe (fuel : Nat) :
    RdMono (readFingerprint fuel) ∧ RdNoNF fuel (readFingerprint fuel) := by
  induction fuel with
  | zero =>
    constructor
    · intro bs a r hc
      exact PRes.noConfusion hc
    · intro bs hlt
      omega
  | succ fuel ih =>
    constructor
    · show RdMono (readFingerprint (fuel + 1))
      unfold readFingerprint
      apply Rd.bind_mono readU64_mono; intro ch
      apply Rd.bind_mono readU64_mono; intro th
      apply Rd.bind_mono readU64_mono; intro ph
      apply Rd.bind_mono readU32_mono; intro nDeps
      apply Rd.bind_mono readU32_mono; intro nLocal
      apply Rd.bind_mono (readN_mono (readDepFPWith_mono ih.1) nDeps); intro deps
      exact Rd.bind_mono (readN_mono readLocalFP_mono nLocal)
        (fun locals => Rd.pure_mono _)
    · show RdNoNF (fuel + 1) (readFingerprint (fuel + 1))
      unfold readFingerprint
      apply Rd.bind_nonf (fun bs _ => readU64_nonf bs) readU64_mono; intro ch
      apply Rd.bind_nonf (fun bs _ => readU64_nonf bs) readU64_mono; intro th
      apply Rd.bind_nonf (fun bs _ => readU64_nonf bs) readU64_mono; intro ph
      apply Rd.bind_nonf (fun bs _ => readU32_nonf bs) readU32_mono; intro nDeps
      apply Rd.bind_nonf (fun bs _ => readU32_nonf bs) readU32_mono; intro nLocal
      apply Rd.bind_nonf
        (readN_nonf (readDepFPWith_nonf ih.1 ih.2) (readDepFPWith_mono ih.1) nDeps)
        (readN_mono (readDepFPWith_mono ih.1) nDeps)
      intro deps
      exact Rd.bind_nonf (readN_nonf (readLocalFP_nonf _) readLocalFP_mono nLocal)
        (readN_mono readLocalFP_mono nLocal)
        (fun locals bs _ hc => PRes.noConfusion hc)

/-- `Fingerprint::deserialize` on a whole buffer never exhausts its fuel —
the fuel-indexed embedding is faithful to the (fuel-free) Rust code. -/
theorem fingerprintDeserialize_not_nofuel (bs : Bytes) :
    fingerprintDeserialize bs ≠ .nofuel := by
  unfold fingerprintDeserialize
  cases hr : readFingerprint (bs.length + 1) bs with
  | ok p => obtain ⟨fp, rest⟩ := p; intro hc; exact PRes.noConfusion hc
  | fail => intro hc; exact PRes.noConfusion hc
  | panicked => intro hc; exact PRes.noConfusion hc
  | nofuel => exact absurd hr ((readFingerprint_safe _).2 bs (by omega))

end Ccargo

namespace Ccargo

/-- `Fingerprint::compare` never returns `Ok`: every branch of the chain of
checks ends in a bail (`Err`), the last one being "… but nothing obvious
changed". -/
theorem compareFP_isErr (h : MFingerprint → Nat) (a b : MFingerprint) :
    ∃ r, compareFP h a b = .error r := by
  unfold compareFP
  repeat' split
  all_goals exact ⟨_, rfl⟩

/-- Case analysis of `compare_old_fingerprint`: it succeeds exactly when the
stored hex equals the new fingerprint's hex and the new `fs_status` is up to
date; otherwise it returns some diagnostic error, except that a present but
malformed `.hash.bin` file makes the deserializer panic.  The fuel and fail
artifacts are unreachable. -/
theorem compareOld_cases (h : MFingerprint → Nat) (disk : MDisk) (fp : MFingerprint) :
    (compareOld h disk fp = .ok (.ok ()) ↔
      disk.hashFile = some (toHex (h fp)) ∧ fp.fsStatus.upToDateB = true) ∧
    (¬(disk.hashFile = some (toHex (h fp)) ∧ fp.fsStatus.upToDateB = true) →
      (∃ e, compareOld h disk fp = .ok (.error e)) ∨
      (compareOld h disk fp = .panicked ∧ disk.hashFile ≠ none ∧
       ∃ bs, disk.binFile = some bs ∧
         readFingerprint (bs.length + 1) bs = .panicked)) ∧
    compareOld h disk fp ≠ .nofuel ∧ compareOld h disk fp ≠ .fail := by
  cases hh : disk.hashFile with
  | none =>
    have he : compareOld h disk fp = .ok (.error .ioHash) := by
      unfold compareOld
      rw [hh]
    rw [he]
    refine ⟨?_, ?_, ?_, ?_⟩
    · constructor
      · intro hc
        injection hc with h2
        exact Except.noConfusion h2
      · intro hA
        exact absurd hA.1 (by simp)
    · intro _
      exact Or.inl ⟨.ioHash, rfl⟩
    · intro hc; exact PRes.noConfusion hc
    · intro hc; exact PRes.noConfusion hc
  | some oldHash =>
    by_cases hcnd : oldHash = toHex (h fp) ∧ fp.fsStatus.upToDateB = true
    · have he : compareOld h disk fp = .ok (.ok ()) := by
        unfold compareOld
        simp only [hh]
        rw [if_pos hcnd]
      rw [he]
      refine ⟨?_, ?_, ?_, ?_⟩
      · constructor
        · intro _
          exact ⟨by rw [hcnd.1], hcnd.2⟩
        · intro _; rfl
      · intro hnA
        exact absurd ⟨by rw [hcnd.1], hcnd.2⟩ hnA
      · intro hc; exact PRes.noConfusion hc
      · intro hc; exact PRes.noConfusion hc
    · have hnA : ¬(some oldHash = some (toHex (h fp)) ∧ fp.fsStatus.upToDateB = true) := by
        intro hA
        injection hA.1 with h2
        exact hcnd ⟨h2, hA.2⟩
      cases hb : disk.binFile with
      | none =>
        have he : compareOld h disk fp = .ok (.error .ioBin) := by
          unfold compareOld
          simp only [hh]
          rw [if_neg hcnd]
          simp only [hb]
        rw [he]
        refine ⟨?_, ?_, ?_, ?_⟩
        · constructor
          · intro hc
            injection hc with h2
            exact Except.noConfusion h2
          · intro hA; exact absurd hA hnA
        · intro _
          exact Or.inl ⟨.ioBin, rfl⟩
        · intro hc; exact PRes.noConfusion hc
        · intro hc; exact PRes.noConfusion hc
      | some bs =>
        cases hr : readFingerprint (bs.length + 1) bs with
        | panicked =>
          have he : compareOld h disk fp = .panicked := by
            unfold compareOld
            simp only [hh]
            rw [if_neg hcnd]
            simp only [hb, hr]
          rw [he]
          refine ⟨?_, ?_, ?_, ?_⟩
          · constructor
            · intro hc; exact PRes.noConfusion hc
            · intro hA; exact absurd hA hnA
          · intro _
            exact Or.inr ⟨rfl, by simp, bs, rfl, hr⟩
          · intro hc; exact PRes.noConfusion hc
          · intro hc; exact PRes.noConfusion hc
        | nofuel =>
          exact absurd hr ((readFingerprint_safe _).2 bs (by omega))
        | fail =>
          have he : compareOld h disk fp = .ok (.error .parseFailed) := by
            unfold compareOld
            simp only [hh]
            rw [if_neg hcnd]
            simp only [hb, hr]
          rw [he]
          refine ⟨?_, ?_, ?_, ?_⟩
          · constructor
            · intro hc
              injection hc with h2
              exact Except.noConfusion h2
            · intro hA; exact absurd hA hnA
          · intro _
            exact Or.inl ⟨.parseFailed, rfl⟩
          · intro hc; exact PRes.noConfusion hc
          · intro hc; exact PRes.noConfusion hc
        | ok p =>
          obtain ⟨oldFp, rest⟩ := p
          obtain ⟨r, hcf⟩ := compareFP_isErr h fp oldFp
          have he : compareOld h disk fp = .ok (.error (.diff r)) := by
            unfold compareOld
            simp only [hh]
            rw [if_neg hcnd]
            simp only [hb, hr, hcf]
          rw [he]
          refine ⟨?_, ?_, ?_, ?_⟩
          · constructor
            · intro hc
              injection hc with h2
              exact Except.noConfusion h2
            · intro hA; exact absurd hA hnA
          · intro _
            exact Or.inl ⟨.diff r, rfl⟩
          · intro hc; exact PRes.noConfusion hc
          · intro hc; exact PRes.noConfusion hc

end Ccargo

namespace Ccargo

/-- C1 (amended): `prepare` reports a unit fresh — returning the default
(empty) `FingerprintState` — if and only if the hex string stored at the
fingerprint path equals the hex encoding of the new fingerprint's
`hash_u64` and the newly computed `fs_status` is `UpToDate`; every
successful return is either that fresh result or the dirty state computed
during calculation; and when the fresh condition fails, `prepare` either
returns the dirty state or — when the stored hash file is readable, the
fresh check fails and the `.hash.bin` file is present but truncated or
corrupt — panics inside `Fingerprint::deserialize` instead of returning
the dirty state.  The fuel and fail artifacts of the embedding are
unreachable. -/
theorem c1_prepare_fresh_iff (h : MFingerprint → Nat) (disk : MDisk)
    (fp : MFingerprint) (st : MState) :
    (prepareFP h disk fp st = .ok ⟨true, fp, freshState⟩ ↔
       disk.hashFile = some (toHex (h fp)) ∧ fp.fsStatus.upToDateB = true) ∧
    (∀ out, prepareFP h disk fp st = .ok out →
       out = ⟨true, fp, freshState⟩ ∨ out = ⟨false, fp, st⟩) ∧
    (¬(disk.hashFile = some (toHex (h fp)) ∧ fp.fsStatus.upToDateB = true) →
       prepareFP h disk fp st = .ok ⟨false, fp, st⟩ ∨
       (prepareFP h disk fp st = .panicked ∧ disk.hashFile ≠ none ∧
        ∃ bs, disk.binFile = some bs ∧
          readFingerprint (bs.length + 1) bs = .panicked)) ∧
    prepareFP h disk fp st ≠ .nofuel ∧ prepareFP h disk fp st ≠ .fail := by
  obtain ⟨hiff, hdirty, hnf, hfl⟩ := compareOld_cases h disk fp
  refine ⟨?_, ?_, ?_, ?_, ?_⟩
  · constructor
    · intro hp
      cases hco : compareOld h disk fp with
      | ok e =>
        cases e with
        | ok u =>
          cases u
          exact hiff.mp hco
        | error r =>
          have hp2 : prepareFP h disk fp st = .ok ⟨false, fp, st⟩ := by
            unfold prepareFP
            rw [hco]
          rw [hp2] at hp
          injection hp with h2
          injection h2 with hb _ _
          exact absurd hb (by simp)
      | fail => exact absurd hco hfl
      | panicked =>
        have hp2 : prepareFP h disk fp st = .panicked := by
          unfold prepareFP
          rw [hco]
        rw [hp2] at hp
        exact PRes.noConfusion hp
      | nofuel => exact absurd hco hnf
    · intro hA
      have hco := hiff.mpr hA
      unfold prepareFP
      rw [hco]
  · intro out hp
    cases hco : compareOld h disk fp with
    | ok e =>
      cases e with
      | ok u =>
        cases u
        have hp2 : prepareFP h disk fp st = .ok ⟨true, fp, freshState⟩ := by
          unfold prepareFP
          rw [hco]
        rw [hp2] at hp
        injection hp with h2
        exact Or.inl h2.symm
      | error r =>
        have hp2 : prepareFP h disk fp st = .ok ⟨false, fp, st⟩ := by
          unfold prepareFP
          rw [hco]
        rw [hp2] at hp
        injection hp with h2
        exact Or.inr h2.symm
    | fail => exact absurd hco hfl
    | panicked =>
      have hp2 : prepareFP h disk fp st = .panicked := by
        unfold prepareFP
        rw [hco]
      rw [hp2] at hp
      exact PRes.noConfusion hp
    | nofuel => exact absurd hco hnf
  · intro hA
    rcases hdirty hA with ⟨e, hco⟩ | ⟨hco, hne, bs, hbs, hrf⟩
    · left
      unfold prepareFP
      rw [hco]
    · right
      refine ⟨?_, hne, bs, hbs, hrf⟩
      unfold prepareFP
      rw [hco]
  · cases hco : compareOld h disk fp with
    | ok e =>
      cases e with
      | ok u =>
        cases u
        intro hp
        have hp2 : prepareFP h disk fp st = .ok ⟨true, fp, freshState⟩ := by
          unfold prepareFP
          rw [hco]
        rw [hp2] at hp
        exact PRes.noConfusion hp
      | error r =>
        intro hp
        have hp2 : prepareFP h disk fp st = .ok ⟨false, fp, st⟩ := by
          unfold prepareFP
          rw [hco]
        rw [hp2] at hp
        exact PRes.noConfusion hp
    | fail => exact absurd hco hfl
    | panicked =>
      intro hp
      have hp2 : prepareFP h disk fp st = .panicked := by
        unfold prepareFP
        rw [hco]
      rw [hp2] at hp
      exact PRes.noConfusion hp
    | nofuel => exact absurd hco hnf
  · cases hco : compareOld h disk fp with
    | ok e =>
      cases e with
      | ok u =>
        cases u
        intro hp
        have hp2 : prepareFP h disk fp st = .ok ⟨true, fp, freshState⟩ := by
          unfold prepareFP
          rw [hco]
        rw [hp2] at hp
        exact PRes.noConfusion hp
      | error r =>
        intro hp
        have hp2 : prepareFP h disk fp st = .ok ⟨false, fp, st⟩ := by
          unfold prepareFP
          rw [hco]
        rw [hp2] at hp
        exact PRes.noConfusion hp
    | fail => exact absurd hco hfl
    | panicked =>
      intro hp
      have hp2 : prepareFP h disk fp st = .panicked := by
        unfold prepareFP
        rw [hco]
      rw [hp2] at hp
      exact PRes.noConfusion hp
    | nofuel => exact absurd hco hnf

/-- C1 counterexample: with a stored hash `"x"` (differing from the new
hex) and an empty `.hash.bin` file, `prepare` panics inside
`Fingerprint::deserialize` (`BinaryReader::read_u64` slices out of bounds
on the empty buffer) instead of returning the dirty `FingerprintState`
computed during calculation, refuting the claim's "in every other case"
clause. -/
theorem c1_truncated_bin_panics :
    prepareFP (fun _ => 0) exDisk1 exFp ⟨∅, true⟩ = .panicked ∧
    ¬(exDisk1.hashFile = some (toHex ((fun _ => 0) exFp)) ∧
      exFp.fsStatus.upToDateB = true) ∧
    prepareFP (fun _ => 0) exDisk1 exFp ⟨∅, true⟩ ≠ .ok ⟨false, exFp, ⟨∅, true⟩⟩ := by
  refine ⟨rfl, by decide, fun h => ?_⟩
  have h2 : (PRes.panicked : PRes PrepOut) = .ok ⟨false, exFp, ⟨∅, true⟩⟩ := h
  exact PRes.noConfusion h2

/-- Witness for C1: with the stored hash equal to `to_hex` of the new hash
and an up-to-date `fs_status`, `prepare` reports fresh with the default
state; with no readable hash file it returns the dirty state it was given. -/
theorem c1_prepare_fresh_iff_witness :
    prepareFP (fun _ => 0) c1DiskFresh c1FpU freshState
      = .ok ⟨true, c1FpU, freshState⟩ ∧
    (prepareFP (fun _ => 0) c1DiskNoHash c1FpU ⟨∅, true⟩
        = .ok ⟨false, c1FpU, ⟨∅, true⟩⟩ ∨
     (prepareFP (fun _ => 0) c1DiskNoHash c1FpU ⟨∅, true⟩ = .panicked ∧
      c1DiskNoHash.hashFile ≠ none ∧
      ∃ bs, c1DiskNoHash.binFile = some bs ∧
        readFingerprint (bs.length + 1) bs = .panicked)) := by
  constructor
  · exact (c1_prepare_fresh_iff (fun _ => 0) c1DiskFresh c1FpU freshState).1.mpr
      ⟨rfl, rfl⟩
  · exact (c1_prepare_fresh_iff (fun _ => 0) c1DiskNoHash c1FpU ⟨∅, true⟩).2.2.1
      (by intro hA; exact absurd hA.1 (by simp [c1DiskNoHash]))

end Ccargo
